import Mathlib

/-!
Verification of the core logic of `app.py` (XML auto-corrector).

The embedding models, over `List (Fin 256)` for byte buffers and `List Char`
for text:
  * `detect_and_decode`         (app.py lines 15-27)
  * `extract_all_order_numbers` (app.py lines 56-92)
  * `add_customer_job_code`     (app.py lines 94-128)
  * `apply_corrections_to_xml`  (app.py lines 130-152)

Python regular-expression calls in the source use only patterns whose
backtracking is deterministic (every quantified class such as `[^<]*` is
followed by a literal starting with the excluded character, and the single
lazy `.*?` is followed by the end of the pattern), so each is embedded as a
direct recursive scanner; the embedded scanners were cross-checked against
CPython `re` on the relevant inputs.  Python `re.sub` compiles its
replacement template eagerly (raising `invalid group reference` / `bad
escape` even when the pattern has no match), which the embedding mirrors
with an `Except` result.  Recursions whose measure is not structural are
written with an explicit fuel argument, always called with fuel at least the
input length; adequacy lemmas show the fuel never runs out.
-/

set_option autoImplicit false

/-! ## Definitions -/

/-- Is a UTF-8 continuation byte (`0x80`-`0xBF`). -/
def isCont (b : Fin 256) : Bool := 0x80 ≤ b.val && b.val ≤ 0xBF

/-- Decode one UTF-8 scalar from the head of the buffer, as Python strict
`utf-8`: rejects overlong forms, surrogates and code points above
`0x10FFFF`.  Returns the code point and the remaining bytes. -/
def utf8DecodeOne : List (Fin 256) → Option (Nat × List (Fin 256))
  | [] => none
  | b :: rest =>
    if b.val < 0x80 then some (b.val, rest)
    else if b.val < 0xC2 then none
    else if b.val ≤ 0xDF then
      match rest with
      | c1 :: rest2 =>
        if isCont c1 then some ((b.val - 0xC0) * 64 + (c1.val - 0x80), rest2) else none
      | [] => none
    else if b.val ≤ 0xEF then
      match rest with
      | c1 :: c2 :: rest2 =>
        if (if b.val = 0xE0 then 0xA0 else 0x80) ≤ c1.val &&
            c1.val ≤ (if b.val = 0xED then 0x9F else 0xBF) && isCont c2 then
          some ((b.val - 0xE0) * 4096 + (c1.val - 0x80) * 64 + (c2.val - 0x80), rest2)
        else none
      | _ => none
    else if b.val ≤ 0xF4 then
      match rest with
      | c1 :: c2 :: c3 :: rest2 =>
        if (if b.val = 0xF0 then 0x90 else 0x80) ≤ c1.val &&
            c1.val ≤ (if b.val = 0xF4 then 0x8F else 0xBF) && isCont c2 && isCont c3 then
          some
            ((b.val - 0xF0) * 262144 + (c1.val - 0x80) * 4096 + (c2.val - 0x80) * 64 +
              (c3.val - 0x80), rest2)
        else none
      | _ => none
    else none

/-- Fuelled strict UTF-8 decoding loop; `none` models `UnicodeDecodeError`. -/
def utf8DecodeF : Nat → List (Fin 256) → Option (List Char)
  | _, [] => some []
  | 0, _ :: _ => none
  | fuel + 1, b :: rest =>
    match utf8DecodeOne (b :: rest) with
    | none => none
    | some (cp, rest2) => (Char.ofNat cp :: ·) <$> utf8DecodeF fuel rest2

/-- Python `bytes.decode('utf-8')`. -/
def utf8Decode (bs : List (Fin 256)) : Option (List Char) := utf8DecodeF bs.length bs

/-- Python `bytes.decode('utf-8-sig')`: strip a leading BOM `EF BB BF` if
present, then strict UTF-8. -/
def utf8SigDecode (bs : List (Fin 256)) : Option (List Char) :=
  match bs with
  | b0 :: b1 :: b2 :: rest =>
    if b0.val = 0xEF ∧ b1.val = 0xBB ∧ b2.val = 0xBF then utf8Decode rest else utf8Decode bs
  | _ => utf8Decode bs

/-- Python `bytes.decode('iso-8859-1')`: every byte maps to the code point of
the same value; never fails. -/
def isoDecode (bs : List (Fin 256)) : Option (List Char) :=
  some (bs.map fun b => Char.ofNat b.val)

/-- Windows-1252 mapping of a single byte; `none` for the five unassigned
bytes `0x81, 0x8D, 0x8F, 0x90, 0x9D`. -/
def cp1252Byte (n : Nat) : Option Nat :=
  if n < 0x80 ∨ 0xA0 ≤ n then some n else
  match n with
  | 0x80 => some 0x20AC
  | 0x82 => some 0x201A
  | 0x83 => some 0x0192
  | 0x84 => some 0x201E
  | 0x85 => some 0x2026
  | 0x86 => some 0x2020
  | 0x87 => some 0x2021
  | 0x88 => some 0x02C6
  | 0x89 => some 0x2030
  | 0x8A => some 0x0160
  | 0x8B => some 0x2039
  | 0x8C => some 0x0152
  | 0x8E => some 0x017D
  | 0x91 => some 0x2018
  | 0x92 => some 0x2019
  | 0x93 => some 0x201C
  | 0x94 => some 0x201D
  | 0x95 => some 0x2022
  | 0x96 => some 0x2013
  | 0x97 => some 0x2014
  | 0x98 => some 0x02DC
  | 0x99 => some 0x2122
  | 0x9A => some 0x0161
  | 0x9B => some 0x203A
  | 0x9C => some 0x0153
  | 0x9E => some 0x017E
  | 0x9F => some 0x0178
  | _ => none

/-- Python `bytes.decode('cp1252')`. -/
def cp1252Decode (bs : List (Fin 256)) : Option (List Char) :=
  bs.mapM fun b => (cp1252Byte b.val).map Char.ofNat

/-- Python `bytes.decode('latin1')` is the same codec as `iso-8859-1`. -/
def latin1Decode (bs : List (Fin 256)) : Option (List Char) := isoDecode bs

/-- Lossy `bytes.decode('utf-8', errors='replace')`: emit `U+FFFD` and resync
on an undecodable byte (this branch of `detect_and_decode` is unreachable,
see the claim-10 theorem, so its exact resynchronisation detail is moot). -/
def utf8DecodeReplaceF : Nat → List (Fin 256) → List Char
  | _, [] => []
  | 0, _ :: _ => []
  | fuel + 1, b :: rest =>
    match utf8DecodeOne (b :: rest) with
    | none => Char.ofNat 0xFFFD :: utf8DecodeReplaceF fuel rest
    | some (cp, rest2) => Char.ofNat cp :: utf8DecodeReplaceF fuel rest2

def utf8DecodeReplace (bs : List (Fin 256)) : List Char :=
  utf8DecodeReplaceF bs.length bs

/-- `detect_and_decode` (app.py lines 15-27): try
`utf-8, utf-8-sig, iso-8859-1, cp1252, latin1` in order, returning the first
successful decode paired with the encoding name; if all fail, lossy UTF-8
with name `utf-8-with-errors`. -/
def detect_and_decode (bs : List (Fin 256)) : List Char × String :=
  match utf8Decode bs with
  | some cs => (cs, "utf-8")
  | none =>
    match utf8SigDecode bs with
    | some cs => (cs, "utf-8-sig")
    | none =>
      match isoDecode bs with
      | some cs => (cs, "iso-8859-1")
      | none =>
        match cp1252Decode bs with
        | some cs => (cs, "cp1252")
        | none =>
          match latin1Decode bs with
          | some cs => (cs, "latin1")
          | none => (utf8DecodeReplace bs, "utf-8-with-errors")

/-- The literal `<CustomerJobCode>`. -/
def lit1 : List Char := "<CustomerJobCode>".data

/-- The literal `</CustomerJobCode>`. -/
def lit1c : List Char := "</CustomerJobCode>".data

/-- The literal `<CostCenterName>`. -/
def lit2o : List Char := "<CostCenterName>".data

/-- The literal `</CostCenterName>`. -/
def lit2c : List Char := "</CostCenterName>".data

/-- The literal `<OrderId`. -/
def litOrd : List Char := "<OrderId".data

/-- The literal `</OrderId>`. -/
def litOrdClose : List Char := "</OrderId>".data

/-- The literal `<IdValue>`. -/
def litIdVo : List Char := "<IdValue>".data

/-- The literal `</IdValue>`. -/
def litIdVc : List Char := "</IdValue>".data

/-- The fixed indentation inserted by `add_customer_job_code`:
a newline and eight spaces. -/
def nl8 : List Char := "\n        ".data

/-- Strip an exact literal from the head, returning the remainder. -/
def dropPre : List Char → List Char → Option (List Char)
  | [], s => some s
  | _ :: _, [] => none
  | l :: ls, c :: cs => if c = l then dropPre ls cs else none

/-- Strip a literal from the head, ASCII case-insensitively
(Python `re.IGNORECASE`). -/
def dropPreCI : List Char → List Char → Option (List Char)
  | [], s => some s
  | _ :: _, [] => none
  | l :: ls, c :: cs => if c.toLower = l.toLower then dropPreCI ls cs else none

/-- Python substring test `needle in hay`. -/
def containsSub (hay needle : List Char) : Bool :=
  hay.tails.any (needle.isPrefixOf ·)

/-- The characters matched by `\s` (and stripped by `str.strip`) on ASCII
text. -/
def isSpacePy (c : Char) : Bool :=
  c = ' ' || c = '\t' || c = '\n' || c = '\r' || c = '\x0b' || c = '\x0c'

/-- One match of `LO[^<]*LC` at the head of the text, for literals `LO` and
`LC` where `LC` starts with `<`; returns (whole match, rest).  The greedy
`[^<]*` must stop at the first `<`, which the closing literal then has to
match, so the pattern is deterministic. -/
def matchEnclosed (lo lc : List Char) (s : List Char) : Option (List Char × List Char) :=
  match dropPre lo s with
  | none => none
  | some s1 =>
    match dropPre lc (s1.dropWhile (· ≠ '<')) with
    | none => none
    | some rest => some (lo ++ s1.takeWhile (· ≠ '<') ++ lc, rest)

/-- One match of `<CustomerJobCode>[^<]*</CustomerJobCode>` at the head of
the text; returns (whole match, rest). -/
def matchUpd : List Char → Option (List Char × List Char) :=
  matchEnclosed lit1 lit1c

/-- One match of `(<CostCenterName>[^<]*</CostCenterName>)` at the head of
the text; returns (whole match = group 1, rest). -/
def matchCcn : List Char → Option (List Char × List Char) :=
  matchEnclosed lit2o lit2c

/-- Find the earliest occurrence of `</OrderId>` (the lazy `.*?` of the
fallback pattern, in DOTALL mode); returns (body before it, rest after). -/
def findCloseOrd : List Char → Option (List Char × List Char)
  | [] => none
  | c :: cs =>
    match dropPre litOrdClose (c :: cs) with
    | some rest => some ([], rest)
    | none => (findCloseOrd cs).map fun p => (c :: p.1, p.2)

/-- One match of `(<OrderId[^>]*>.*?</OrderId>)` (DOTALL) at the head of the
text; returns (whole match = group 1, rest). -/
def matchOrd3 (s : List Char) : Option (List Char × List Char) :=
  match dropPre litOrd s with
  | none => none
  | some s1 =>
    match s1.dropWhile (· ≠ '>') with
    | c :: s2 =>
      if c = '>' then
        match findCloseOrd s2 with
        | none => none
        | some (body, rest) =>
          some (litOrd ++ s1.takeWhile (· ≠ '>') ++ '>' :: (body ++ litOrdClose), rest)
      else none
    | [] => none

/-- One match of `<OrderId[^>]*>\s*<IdValue>([^<]+)</IdValue>` with
`re.IGNORECASE`, at the head of the text; returns (captured group, rest
after the whole match). -/
def matchOrderNum (s : List Char) : Option (List Char × List Char) :=
  match dropPreCI litOrd s with
  | none => none
  | some s1 =>
    match s1.dropWhile (· ≠ '>') with
    | c :: s2 =>
      if c = '>' then
        match dropPreCI litIdVo (s2.dropWhile isSpacePy) with
        | none => none
        | some s4 =>
          let grp := s4.takeWhile (· ≠ '<')
          if grp.isEmpty then none
          else
            match dropPreCI litIdVc (s4.dropWhile (· ≠ '<')) with
            | none => none
            | some rest => some (grp, rest)
      else none
    | [] => none

/-- `re.sub` scanning: at each position try `step`; on a match emit
`f match` and resume after it, otherwise keep the character.  Always called
with fuel at least the input length. -/
def scanSub (step : List Char → Option (List Char × List Char))
    (f : List Char → List Char) : Nat → List Char → List Char
  | _, [] => []
  | 0, s => s
  | fuel + 1, c :: cs =>
    match step (c :: cs) with
    | some (m, rest) => f m ++ scanSub step f fuel rest
    | none => c :: scanSub step f fuel cs

/-- `re.findall` scanning: collect the non-overlapping matches left to
right. -/
def scanFind (step : List Char → Option (List Char × List Char)) :
    Nat → List Char → List (List Char)
  | _, [] => []
  | 0, _ :: _ => []
  | fuel + 1, c :: cs =>
    match step (c :: cs) with
    | some (m, rest) => m :: scanFind step fuel rest
    | none => scanFind step fuel cs

/-- Truthiness of `re.search`: does any position match? -/
def searchExists (step : List Char → Option (List Char × List Char)) :
    Nat → List Char → Bool
  | _, [] => false
  | 0, _ :: _ => false
  | fuel + 1, c :: cs =>
    match step (c :: cs) with
    | some _ => true
    | none => searchExists step fuel cs

/-- `re.sub(pattern, repl, s)` for a deterministic pattern `step` and
compiled replacement `f`. -/
def pySub (step : List Char → Option (List Char × List Char))
    (f : List Char → List Char) (s : List Char) : List Char :=
  scanSub step f s.length s

/-- `re.findall(pattern, s)` for a deterministic pattern `step`. -/
def pyFindall (step : List Char → Option (List Char × List Char))
    (s : List Char) : List (List Char) :=
  scanFind step s.length s

/-- Truthiness of `re.search(pattern, s)` for a deterministic pattern
`step`. -/
def pySearch (step : List Char → Option (List Char × List Char))
    (s : List Char) : Bool :=
  searchExists step s.length s

inductive TmplItem where
  | lit (cs : List Char)
  | grp (n : Nat)
deriving DecidableEq

/-- ASCII letter? (Python raises `bad escape` exactly for unknown escaped
ASCII letters). -/
def isAsciiLetter (c : Char) : Bool :=
  ('a' ≤ c && c ≤ 'z') || ('A' ≤ c && c ≤ 'Z')

/-- Known single-character escapes of the template language. -/
def tmplEscape (c : Char) : Option Char :=
  if c = 'n' then some '\n'
  else if c = 't' then some '\t'
  else if c = 'r' then some '\r'
  else if c = 'f' then some '\x0c'
  else if c = 'v' then some '\x0b'
  else if c = 'a' then some '\x07'
  else if c = 'b' then some '\x08'
  else if c = '\\' then some '\\'
  else none

/-- Consume one token of the replacement template (CPython
`sre_parse.parse_template`): eager validation of group references. -/
def tmplStep (ngroups : Nat) : List Char → Except String (TmplItem × List Char)
  | [] => .error "empty template"
  | '\\' :: rest =>
    match rest with
    | [] => .error "bad escape (end of pattern)"
    | c :: rest2 =>
      if c = 'g' then
        match rest2 with
        | '<' :: rest3 =>
          let name := rest3.takeWhile (· ≠ '>')
          match rest3.dropWhile (· ≠ '>') with
          | _ :: rest4 =>
            if name ≠ [] ∧ name.all Char.isDigit then
              let n := name.foldl (fun a d => a * 10 + (d.toNat - '0'.toNat)) 0
              if n ≤ ngroups then .ok (TmplItem.grp n, rest4)
              else .error "invalid group reference"
            else .error "unknown group name"
          | [] => .error "missing >, unterminated name"
        | _ => .error "missing <"
      else if c = '0' then .ok (TmplItem.lit ['\x00'], rest2)
      else if c.isDigit then
        match rest2 with
        | d :: rest3 =>
          if d.isDigit then
            let n := (c.toNat - '0'.toNat) * 10 + (d.toNat - '0'.toNat)
            if n ≤ ngroups then .ok (TmplItem.grp n, rest3)
            else .error "invalid group reference"
          else
            let n := c.toNat - '0'.toNat
            if n ≤ ngroups then .ok (TmplItem.grp n, rest2)
            else .error "invalid group reference"
        | [] =>
          let n := c.toNat - '0'.toNat
          if n ≤ ngroups then .ok (TmplItem.grp n, [])
          else .error "invalid group reference"
      else
        match tmplEscape c with
        | some e => .ok (TmplItem.lit [e], rest2)
        | none =>
          if isAsciiLetter c then .error "bad escape"
          else .ok (TmplItem.lit ['\\', c], rest2)
  | c :: rest => .ok (TmplItem.lit [c], rest)

/-- Fuelled template-parsing loop. -/
def parseTemplateF (ngroups : Nat) : Nat → List Char → Except String (List TmplItem)
  | _, [] => .ok []
  | 0, _ :: _ => .ok []
  | fuel + 1, c :: cs =>
    match tmplStep ngroups (c :: cs) with
    | .error e => .error e
    | .ok (item, rest) => (parseTemplateF ngroups fuel rest).map (item :: ·)

/-- Parse a replacement template against a pattern with `ngroups` capture
groups. -/
def parseTemplate (ngroups : Nat) (t : List Char) : Except String (List TmplItem) :=
  parseTemplateF ngroups t.length t

/-- Render a parsed template for one match: group 0 is the whole match. -/
def renderTemplate (whole : List Char) (groups : List (List Char)) :
    List TmplItem → List Char
  | [] => []
  | .lit cs :: items => cs ++ renderTemplate whole groups items
  | .grp 0 :: items => whole ++ renderTemplate whole groups items
  | .grp (n + 1) :: items => groups.getD n [] ++ renderTemplate whole groups items

/-- The replacement template of the update branch,
`f'<CustomerJobCode>{job_code}</CustomerJobCode>'`. -/
def updTemplate (jc : List Char) : List Char := lit1 ++ jc ++ lit1c

/-- The replacement template of both insertion branches,
`f'\\1\n        <CustomerJobCode>{job_code}</CustomerJobCode>'`. -/
def insTemplate (jc : List Char) : List Char :=
  '\\' :: '1' :: (nl8 ++ lit1 ++ jc ++ lit1c)

/-- `add_customer_job_code` (app.py lines 94-128): update an existing
`CustomerJobCode`, else insert after each `CostCenterName`, else after each
`OrderId` element, else leave unchanged; any error from the (eagerly
compiled) replacement template is caught and the input returned
unmodified. -/
def add_customer_job_code (xml jc : List Char) : List Char × String :=
  if containsSub xml lit1 then
    match parseTemplate 0 (updTemplate jc) with
    | .error e => (xml, "erreur: " ++ e)
    | .ok items =>
      (pySub matchUpd (fun m => renderTemplate m [] items) xml, "mise_a_jour")
  else if pyFindall matchCcn xml ≠ [] then
    match parseTemplate 1 (insTemplate jc) with
    | .error e => (xml, "erreur: " ++ e)
    | .ok items =>
      (pySub matchCcn (fun m => renderTemplate m [m] items) xml, "ajout")
  else if pySearch matchOrd3 xml then
    match parseTemplate 1 (insTemplate jc) with
    | .error e => (xml, "erreur: " ++ e)
    | .ok items =>
      (pySub matchOrd3 (fun m => renderTemplate m [m] items) xml,
        "ajout_alternatif")
  else (xml, "emplacement_non_trouve")

/-- Python `str.strip()` on ASCII text. -/
def pyStrip (s : List Char) : List Char :=
  ((s.dropWhile isSpacePy).reverse.dropWhile isSpacePy).reverse

/-- Python `str.isdigit()` restricted to ASCII digits (the identifiers the
spec speaks about are plain numeric strings). -/
def pyIsdigit (s : List Char) : Bool := !s.isEmpty && s.all Char.isDigit

/-- Python `str.zfill(w)`: left-pad with zeros to width `w`, keeping a
leading sign in place. -/
def zfill (w : Nat) (s : List Char) : List Char :=
  match s with
  | [] => List.replicate w '0'
  | c :: rest =>
    if c = '+' ∨ c = '-' then
      if s.length < w then c :: (List.replicate (w - s.length) '0' ++ rest) else s
    else if s.length < w then List.replicate (w - s.length) '0' ++ s else s

/-- The normalisation applied to every extracted identifier (app.py lines
68-69, 83-84) and to correction keys (lines 43-44): zero-pad purely numeric
strings shorter than 6 digits. -/
def normalizeOrderId (s : List Char) : List Char :=
  if pyIsdigit s ∧ s.length < 6 then zfill 6 s else s

/-- The accumulation loop of the primary strategy (app.py lines 65-71):
strip, normalise, and append if not already present. -/
def collectOrders : List (List Char) → List (List Char) → List (List Char)
  | [], acc => acc
  | m :: rest, acc =>
    let oid := normalizeOrderId (pyStrip m)
    if acc.contains oid then collectOrders rest acc else collectOrders rest (acc ++ [oid])

inductive XElem where
  | node (tag : List Char) (text : List Char) (children : List XElem)

def XElem.tag : XElem → List Char
  | .node t _ _ => t

def XElem.text : XElem → List Char
  | .node _ x _ => x

def XElem.children : XElem → List XElem
  | .node _ _ cs => cs

/-- Characters allowed in an element name by the model. -/
def xmlNameChar (c : Char) : Bool :=
  c.isAlphanum || c = '_' || c = '-' || c = '.' || c = ':'

/-- Skip to just past the first occurrence of `marker`. -/
def skipAfter (marker : List Char) : List Char → Option (List Char)
  | [] => none
  | c :: cs =>
    match dropPre marker (c :: cs) with
    | some rest => some rest
    | none => skipAfter marker cs

mutual

/-- Parse one element starting at `<`. -/
def parseElem : Nat → List Char → Option (XElem × List Char)
  | 0, _ => none
  | fuel + 1, s =>
    match s with
    | '<' :: s1 =>
      let tag := s1.takeWhile xmlNameChar
      if tag.isEmpty then none
      else
        match parseAttrs fuel (s1.dropWhile xmlNameChar) with
        | some (true, rest) => some (.node tag [] [], rest)
        | some (false, rest) =>
          match parseContent fuel tag rest with
          | some (text, children, rest2) => some (.node tag text children, rest2)
          | none => none
        | none => none
    | _ => none

/-- Parse the attribute region up to `>` (returns `false`) or `/>`
(returns `true`). -/
def parseAttrs : Nat → List Char → Option (Bool × List Char)
  | 0, _ => none
  | fuel + 1, s =>
    match s.dropWhile isSpacePy with
    | '>' :: rest => some (false, rest)
    | '/' :: '>' :: rest => some (true, rest)
    | c :: cs =>
      if xmlNameChar c then
        match ((c :: cs).dropWhile xmlNameChar).dropWhile isSpacePy with
        | '=' :: s3 =>
          match s3.dropWhile isSpacePy with
          | q :: s4 =>
            if q = '"' ∨ q = '\'' then
              match s4.dropWhile (· ≠ q) with
              | _ :: s5 => parseAttrs fuel s5
              | [] => none
            else none
          | [] => none
        | _ => none
      else none
    | [] => none

/-- Parse element content: leading text (which becomes `.text`), then
children until the matching close tag; text between and after children
(`</tail>` text) is discarded, as the extractor never reads it. -/
def parseContent : Nat → List Char → List Char → Option (List Char × List XElem × List Char)
  | 0, _, _ => none
  | fuel + 1, tag, s =>
    match parseChildren fuel tag (s.dropWhile (· ≠ '<')) with
    | some (children, rest) => some (s.takeWhile (· ≠ '<'), children, rest)
    | none => none

/-- Parse children, comments and processing instructions until the matching
close tag. -/
def parseChildren : Nat → List Char → List Char → Option (List XElem × List Char)
  | 0, _, _ => none
  | fuel + 1, tag, s =>
    match s with
    | '<' :: '/' :: s1 =>
      if tag.isPrefixOf s1 ∧ s1.length ≥ tag.length ∧
          ¬ xmlNameChar (s1.getD tag.length '>') then
        match ((s1.drop tag.length).dropWhile isSpacePy) with
        | '>' :: rest => some ([], rest)
        | _ => none
      else none
    | '<' :: '!' :: '-' :: '-' :: s1 =>
      match skipAfter "-->".data s1 with
      | some s2 => parseChildren fuel tag (s2.dropWhile (· ≠ '<'))
      | none => none
    | '<' :: '?' :: s1 =>
      match skipAfter "?>".data s1 with
      | some s2 => parseChildren fuel tag (s2.dropWhile (· ≠ '<'))
      | none => none
    | '<' :: _ =>
      match parseElem fuel s with
      | some (child, rest) =>
        match parseChildren fuel tag (rest.dropWhile (· ≠ '<')) with
        | some (children, rest2) => some (child :: children, rest2)
        | none => none
      | none => none
    | _ => none

end

/-- Skip whitespace, comments and processing instructions (including the
XML declaration) before or after the root element. -/
def skipMisc : Nat → List Char → Option (List Char)
  | 0, _ => none
  | fuel + 1, s =>
    match s.dropWhile isSpacePy with
    | '<' :: '?' :: s2 =>
      match skipAfter "?>".data s2 with
      | some s3 => skipMisc fuel s3
      | none => none
    | '<' :: '!' :: '-' :: '-' :: s2 =>
      match skipAfter "-->".data s2 with
      | some s3 => skipMisc fuel s3
      | none => none
    | s1 => some s1

/-- `ET.fromstring`: prolog, one root element, trailing misc, end of
input. -/
def etFromstring (s : List Char) : Option XElem :=
  match skipMisc (s.length + 1) s with
  | none => none
  | some s1 =>
    match parseElem (8 * s1.length + 64) s1 with
    | none => none
    | some (root, rest) =>
      match skipMisc (rest.length + 1) rest with
      | some [] => some root
      | _ => none

mutual

/-- `Element.iter()`: the element and all its descendants, document
order. -/
def elemIter : XElem → List XElem
  | .node t x cs => .node t x cs :: elemIterList cs

def elemIterList : List XElem → List XElem
  | [] => []
  | e :: es => elemIter e ++ elemIterList es

end

/-- `elem.find('.//IdValue')`: first descendant (not self) in document
order whose tag is exactly `IdValue`. -/
def XElem.findIdValue (e : XElem) : Option XElem :=
  (elemIterList e.children).find? fun d => d.tag = "IdValue".data

/-- The fallback accumulation loop (app.py lines 77-86): for every element
whose tag contains `OrderId`, take the text of its first `IdValue`
descendant if non-empty, normalise and append if not already present. -/
def fallbackCollect : List XElem → List (List Char) → List (List Char)
  | [], acc => acc
  | e :: rest, acc =>
    if containsSub e.tag "OrderId".data then
      match e.findIdValue with
      | some idv =>
        if idv.text ≠ [] then
          let oid := normalizeOrderId (pyStrip idv.text)
          if acc.contains oid then fallbackCollect rest acc
          else fallbackCollect rest (acc ++ [oid])
        else fallbackCollect rest acc
      | none => fallbackCollect rest acc
    else fallbackCollect rest acc

/-- `extract_all_order_numbers` (app.py lines 56-92): regex strategy first;
the structured fallback only when it yields nothing; empty list on parse
failure. -/
def extract_all_order_numbers (xml : List Char) : List (List Char) :=
  let primary := collectOrders (pyFindall matchOrderNum xml) []
  if primary = [] then
    match etFromstring xml with
    | none => []
    | some root => fallbackCollect (elemIter root) []
  else primary

/-- Python `status.replace('_', ' ')`. -/
def statusDisplay (status : String) : String :=
  String.mk (status.data.map fun c => if c = '_' then ' ' else c)

/-- Report line for an applied correction. -/
def reportLine (o v : List Char) (status : String) : String :=
  "Commande " ++ String.mk o ++ " - CustomerJobCode: " ++ String.mk v ++
    " (" ++ statusDisplay status ++ ")"

/-- Report line for a failed correction. -/
def reportLineFail (o : List Char) (status : String) : String :=
  "Commande " ++ String.mk o ++ " - CustomerJobCode: ÉCHEC (" ++ status ++ ")"

/-- Inner loop over one order's field corrections: only the field name
`CustomerJobCode` is dispatched, others are silently ignored. -/
def applyFields (o : List Char) (fields : List (List Char × List Char))
    (xml : List Char) (report : List String) : List Char × List String :=
  match fields with
  | [] => (xml, report)
  | (field, value) :: rest =>
    if field = "CustomerJobCode".data then
      let r := add_customer_job_code xml value
      let line :=
        if r.2 = "ajout" ∨ r.2 = "mise_a_jour" ∨ r.2 = "ajout_alternatif" then
          reportLine o value r.2
        else reportLineFail o r.2
      applyFields o rest r.1 (report ++ [line])
    else applyFields o rest xml report

/-- Dictionary lookup `corrections[order_number]` on the association-list
model of the corrections map. -/
def lookupCorr (corr : List (List Char × List (List Char × List Char)))
    (o : List Char) : Option (List (List Char × List Char)) :=
  (corr.find? fun p => p.1 = o).map (·.2)

/-- `apply_corrections_to_xml` (app.py lines 130-152): sequentially apply
every known correction for every extracted order number to the same running
text buffer, accumulating report lines. -/
def apply_corrections_to_xml (xml : List Char) (orderNumbers : List (List Char))
    (corrections : List (List Char × List (List Char × List Char))) :
    List Char × List String :=
  match orderNumbers with
  | [] => (xml, [])
  | o :: rest =>
    match lookupCorr corrections o with
    | some fields =>
      let r := applyFields o fields xml []
      let r2 := apply_corrections_to_xml r.1 rest corrections
      (r2.1, r.2 ++ r2.2)
    | none => apply_corrections_to_xml xml rest corrections

/-- Every deterministic pattern of the source consumes at least one
character per match. -/
def StepConsumes (step : List Char → Option (List Char × List Char)) : Prop :=
  ∀ s m r, step s = some (m, r) → r.length < s.length

/-- The item list of a backslash-free template: one literal per
character. -/
def litItems (t : List Char) : List TmplItem := t.map fun c => .lit [c]

/-- The exception raised inside the `try` body of `add_customer_job_code`,
when one is raised: the only fallible operations in the body are the eager
replacement-template compilations of its three `re.sub` calls. -/
def addJobCodeExc (xml jc : List Char) : Option String :=
  if containsSub xml lit1 then
    match parseTemplate 0 (updTemplate jc) with
    | .error e => some e
    | .ok _ => none
  else if pyFindall matchCcn xml ≠ [] then
    match parseTemplate 1 (insTemplate jc) with
    | .error e => some e
    | .ok _ => none
  else if pySearch matchOrd3 xml then
    match parseTemplate 1 (insTemplate jc) with
    | .error e => some e
    | .ok _ => none
  else none

/-- The update substitution of the first branch of `add_customer_job_code`,
with its constant replacement. -/
def updSub (jc : List Char) : List Char → List Char :=
  pySub matchUpd fun _ => updTemplate jc

/-- Texts in which every occurrence of `<CustomerJobCode>` starts an exact
copy of the replacement block `r`. -/
inductive GoodBlocks (r : List Char) : List Char → Prop where
  | nil : GoodBlocks r []
  | keep {c : Char} {cs : List Char} : ¬ lit1 <+: c :: cs → GoodBlocks r cs →
      GoodBlocks r (c :: cs)
  | block {s2 : List Char} : GoodBlocks r s2 → GoodBlocks r (r ++ s2)

/-! ## Theorems -/

theorem utf8DecodeOne_len {bs : List (Fin 256)} {cp : Nat} {r : List (Fin 256)}
    (h : utf8DecodeOne bs = some (cp, r)) : r.length < bs.length := by
  match bs with
  | [] => simp [utf8DecodeOne] at h
  | b :: rest =>
    unfold utf8DecodeOne at h
    repeat' split at h
    all_goals simp_all
    all_goals omega

theorem utf8DecodeF_adequate {bs : List (Fin 256)} {fuel : Nat} (h : bs.length ≤ fuel) :
    utf8DecodeF fuel bs = utf8Decode bs := by
  induction fuel using Nat.strong_induction_on generalizing bs with
  | _ fuel ih =>
    match bs, fuel with
    | [], f => cases f <;> rfl
    | b :: rest, fuel + 1 =>
      show _ = utf8DecodeF (rest.length + 1) _
      unfold utf8DecodeF
      cases ho : utf8DecodeOne (b :: rest) with
      | none => rfl
      | some v =>
        obtain ⟨cp, rest2⟩ := v
        have hlen := utf8DecodeOne_len ho
        simp only [List.length_cons] at hlen h
        dsimp only
        rw [ih fuel (by omega) (by omega : rest2.length ≤ fuel),
          ih rest.length (by omega) (by omega : rest2.length ≤ rest.length)]

theorem utf8Decode_bom (rest : List (Fin 256)) :
    utf8Decode (0xEF :: 0xBB :: 0xBF :: rest) =
      (Char.ofNat 0xFEFF :: ·) <$> utf8Decode rest := by
  show utf8DecodeF (rest.length + 1 + 1 + 1) _ = _
  unfold utf8DecodeF
  rw [show utf8DecodeOne (0xEF :: 0xBB :: 0xBF :: rest) = some (0xFEFF, rest) from rfl]
  dsimp only
  rw [utf8DecodeF_adequate (by omega)]

theorem utf8SigDecode_eq_none {bs : List (Fin 256)} (h : utf8Decode bs = none) :
    utf8SigDecode bs = none := by
  unfold utf8SigDecode
  match bs with
  | [] => exact h
  | [b0] => exact h
  | [b0, b1] => exact h
  | b0 :: b1 :: b2 :: rest =>
    simp only
    split
    · next hbom =>
      obtain ⟨h0, h1, h2⟩ := hbom
      rw [show b0 = (0xEF : Fin 256) from Fin.ext h0,
          show b1 = (0xBB : Fin 256) from Fin.ext h1,
          show b2 = (0xBF : Fin 256) from Fin.ext h2, utf8Decode_bom] at h
      cases hu : utf8Decode rest with
      | none => rfl
      | some cs => rw [hu] at h; simp at h
    · exact h

/-- Claim C2, counterexample: the byte `0xE9` is a valid Windows-1252
encoding (of `é`) and is invalid as UTF-8, yet `detect_and_decode` does not
return the encoding name `cp1252` on it (it returns `iso-8859-1`, which
precedes `cp1252` in the list and never fails). -/
theorem cp1252_never_detected_counterexample :
    (cp1252Decode [(0xE9 : Fin 256)]).isSome = true ∧
      utf8Decode [(0xE9 : Fin 256)] = none ∧
      (detect_and_decode [(0xE9 : Fin 256)]).2 ≠ "cp1252" := by decide

/-- Claim C2, amended: for bytes invalid as UTF-8 (in particular any valid
Windows-1252 bytes containing a non-UTF-8 sequence), `detect_and_decode`
decodes successfully but via ISO-8859-1, returning the encoding name
`"iso-8859-1"` — never `"cp1252"` — because ISO-8859-1 is tried before
Windows-1252 and decodes every byte string without error. -/
theorem detect_and_decode_invalid_utf8_yields_iso {bs : List (Fin 256)}
    (h : utf8Decode bs = none) :
    detect_and_decode bs = (bs.map fun b => Char.ofNat b.val, "iso-8859-1") := by
  unfold detect_and_decode
  rw [h, utf8SigDecode_eq_none h]
  rfl

theorem detect_and_decode_invalid_utf8_yields_iso_witness :
    utf8Decode [(0xE9 : Fin 256)] = none ∧
      detect_and_decode [(0xE9 : Fin 256)] = ([Char.ofNat 0xE9], "iso-8859-1") :=
  ⟨by decide, by rw [detect_and_decode_invalid_utf8_yields_iso (by decide)]; rfl⟩

/-- Claim C10: the lossy fallback of `detect_and_decode` is unreachable;
since ISO-8859-1 decodes every byte string, the returned encoding name is
always one of `utf-8`, `utf-8-sig`, `iso-8859-1` — never `cp1252`, `latin1`
or `utf-8-with-errors` — and the function is total (never raises). -/
theorem detect_and_decode_result_encoding (bs : List (Fin 256)) :
    (detect_and_decode bs).2 = "utf-8" ∨ (detect_and_decode bs).2 = "utf-8-sig" ∨
      (detect_and_decode bs).2 = "iso-8859-1" := by
  unfold detect_and_decode
  cases utf8Decode bs with
  | some cs => left; rfl
  | none =>
    cases utf8SigDecode bs with
    | some cs => right; left; rfl
    | none => right; right; rfl

theorem scanSub_adequate {step : List Char → Option (List Char × List Char)}
    {f : List Char → List Char} (hstep : StepConsumes step) {fuel : Nat} {s : List Char}
    (h : s.length ≤ fuel) : scanSub step f fuel s = pySub step f s := by
  induction fuel using Nat.strong_induction_on generalizing s with
  | _ fuel ih =>
    match s, fuel with
    | [], f2 => cases f2 <;> rfl
    | c :: cs, fuel + 1 =>
      show _ = scanSub step f (cs.length + 1) _
      unfold scanSub
      cases ho : step (c :: cs) with
      | none =>
        dsimp only
        simp only [List.length_cons] at h
        rw [ih fuel (by omega) (by omega : cs.length ≤ fuel),
          ih cs.length (by omega) (le_refl _)]
      | some v =>
        obtain ⟨m, r⟩ := v
        have hlen := hstep _ _ _ ho
        simp only [List.length_cons] at hlen h
        dsimp only
        rw [ih fuel (by omega) (by omega : r.length ≤ fuel),
          ih cs.length (by omega) (by omega : r.length ≤ cs.length)]

theorem pySub_cons_none {step : List Char → Option (List Char × List Char)}
    {f : List Char → List Char} {c : Char} {cs : List Char} (h : step (c :: cs) = none) :
    pySub step f (c :: cs) = c :: pySub step f cs := by
  show scanSub step f (cs.length + 1) (c :: cs) = _
  unfold scanSub
  rw [h]
  rfl

theorem pySub_cons_some {step : List Char → Option (List Char × List Char)}
    {f : List Char → List Char} {s m r : List Char} (hstep : StepConsumes step)
    (h : step s = some (m, r)) : pySub step f s = f m ++ pySub step f r := by
  cases s with
  | nil => exact absurd (hstep _ _ _ h) (by simp)
  | cons c cs =>
    show scanSub step f (cs.length + 1) (c :: cs) = _
    unfold scanSub
    rw [h]
    dsimp only
    have hlen := hstep _ _ _ h
    simp only [List.length_cons] at hlen
    rw [scanSub_adequate hstep (by omega : r.length ≤ cs.length)]

theorem scanFind_adequate {step : List Char → Option (List Char × List Char)}
    (hstep : StepConsumes step) {fuel : Nat} {s : List Char} (h : s.length ≤ fuel) :
    scanFind step fuel s = pyFindall step s := by
  induction fuel using Nat.strong_induction_on generalizing s with
  | _ fuel ih =>
    match s, fuel with
    | [], f2 => cases f2 <;> rfl
    | c :: cs, fuel + 1 =>
      show _ = scanFind step (cs.length + 1) _
      unfold scanFind
      cases ho : step (c :: cs) with
      | none =>
        dsimp only
        simp only [List.length_cons] at h
        rw [ih fuel (by omega) (by omega : cs.length ≤ fuel),
          ih cs.length (by omega) (le_refl _)]
      | some v =>
        obtain ⟨m, r⟩ := v
        have hlen := hstep _ _ _ ho
        simp only [List.length_cons] at hlen h
        dsimp only
        rw [ih fuel (by omega) (by omega : r.length ≤ fuel),
          ih cs.length (by omega) (by omega : r.length ≤ cs.length)]

theorem pyFindall_cons_none {step : List Char → Option (List Char × List Char)}
    {c : Char} {cs : List Char} (h : step (c :: cs) = none) :
    pyFindall step (c :: cs) = pyFindall step cs := by
  show scanFind step (cs.length + 1) (c :: cs) = _
  unfold scanFind
  rw [h]
  rfl

theorem pyFindall_cons_some {step : List Char → Option (List Char × List Char)}
    {s m r : List Char} (hstep : StepConsumes step) (h : step s = some (m, r)) :
    pyFindall step s = m :: pyFindall step r := by
  cases s with
  | nil => exact absurd (hstep _ _ _ h) (by simp)
  | cons c cs =>
    show scanFind step (cs.length + 1) (c :: cs) = _
    unfold scanFind
    rw [h]
    dsimp only
    have hlen := hstep _ _ _ h
    simp only [List.length_cons] at hlen
    rw [scanFind_adequate hstep (by omega : r.length ≤ cs.length)]

theorem pySearch_cons_none {step : List Char → Option (List Char × List Char)}
    {c : Char} {cs : List Char} (h : step (c :: cs) = none) :
    pySearch step (c :: cs) = pySearch step cs := by
  show searchExists step (cs.length + 1) (c :: cs) = _
  unfold searchExists
  rw [h]
  rfl

theorem pySearch_cons_some {step : List Char → Option (List Char × List Char)}
    {c : Char} {cs m r : List Char} (h : step (c :: cs) = some (m, r)) :
    pySearch step (c :: cs) = true := by
  show searchExists step (cs.length + 1) (c :: cs) = _
  unfold searchExists
  rw [h]

theorem pySub_congr {step : List Char → Option (List Char × List Char)}
    {f g : List Char → List Char} (hfg : ∀ m, f m = g m) (s : List Char) :
    pySub step f s = pySub step g s := by
  suffices h : ∀ fuel t, scanSub step f fuel t = scanSub step g fuel t from h s.length s
  intro fuel
  induction fuel with
  | zero => intro t; cases t <;> rfl
  | succ fuel ih =>
    intro t
    cases t with
    | nil => rfl
    | cons c cs =>
      unfold scanSub
      cases ho : step (c :: cs) with
      | none => dsimp only; rw [ih]
      | some v => obtain ⟨m, r⟩ := v; dsimp only; rw [hfg, ih]

theorem dropPre_eq_some {l s r : List Char} : dropPre l s = some r ↔ s = l ++ r := by
  induction l generalizing s with
  | nil => simp [dropPre]
  | cons x xs ih =>
    cases s with
    | nil => simp [dropPre]
    | cons c cs =>
      unfold dropPre
      by_cases hc : c = x
      · subst hc
        simp [ih]
      · simp only [if_neg hc, List.cons_append]
        constructor
        · intro h
          cases h
        · intro h
          injection h with h1 h2
          exact absurd h1 hc

theorem takeWhile_append_cons {α : Type} {p : α → Bool} {a : List α} {x : α} {y : List α}
    (ha : ∀ c ∈ a, p c = true) (hx : p x = false) :
    (a ++ x :: y).takeWhile p = a := by
  induction a with
  | nil => simp [List.takeWhile_cons, hx]
  | cons z zs ih =>
    have hz := ha z (by simp)
    simp only [List.cons_append, List.takeWhile_cons, hz, if_true]
    rw [ih fun c hc => ha c (by simp [hc])]

theorem dropWhile_append_cons {α : Type} {p : α → Bool} {a : List α} {x : α} {y : List α}
    (ha : ∀ c ∈ a, p c = true) (hx : p x = false) :
    (a ++ x :: y).dropWhile p = x :: y := by
  induction a with
  | nil => simp [List.dropWhile_cons, hx]
  | cons z zs ih =>
    have hz := ha z (by simp)
    simp only [List.cons_append, List.dropWhile_cons, hz, if_true]
    exact ih fun c hc => ha c (by simp [hc])

theorem matchEnclosed_of_shape {lo lc0 run t : List Char} (h : '<' ∉ run) :
    matchEnclosed lo ('<' :: lc0) (lo ++ (run ++ ('<' :: (lc0 ++ t)))) =
      some (lo ++ (run ++ ('<' :: lc0)), t) := by
  unfold matchEnclosed
  have e1 : dropPre lo (lo ++ (run ++ ('<' :: (lc0 ++ t)))) =
      some (run ++ ('<' :: (lc0 ++ t))) := dropPre_eq_some.mpr rfl
  rw [e1]
  dsimp only
  have hrun : ∀ c ∈ run, (decide (c ≠ '<')) = true := fun c hc => by
    simp only [decide_eq_true_iff]
    exact fun he => h (he ▸ hc)
  have hx : (decide (('<' : Char) ≠ '<')) = false := by decide
  rw [dropWhile_append_cons hrun hx, takeWhile_append_cons hrun hx]
  have e2 : dropPre ('<' :: lc0) ('<' :: (lc0 ++ t)) = some t :=
    dropPre_eq_some.mpr (by simp)
  rw [e2]
  simp

theorem matchEnclosed_shape {lo lc s m r : List Char}
    (h : matchEnclosed lo lc s = some (m, r)) :
    ∃ run, '<' ∉ run ∧ m = lo ++ run ++ lc ∧ s = m ++ r := by
  unfold matchEnclosed at h
  cases h1 : dropPre lo s with
  | none => rw [h1] at h; exact absurd h (by simp)
  | some s1 =>
    rw [h1] at h
    dsimp only at h
    cases h2 : dropPre lc (s1.dropWhile (· ≠ '<')) with
    | none => rw [h2] at h; exact absurd h (by simp)
    | some rest =>
      rw [h2] at h
      simp only [Option.some_inj, Prod.mk.injEq] at h
      obtain ⟨hm, hr⟩ := h
      refine ⟨s1.takeWhile (· ≠ '<'), ?_, hm.symm, ?_⟩
      · intro hmem
        have := List.mem_takeWhile_imp hmem
        simp at this
      · have hs : s = lo ++ s1 := dropPre_eq_some.mp h1
        have hsplit : s1.takeWhile (· ≠ '<') ++ s1.dropWhile (· ≠ '<') = s1 :=
          List.takeWhile_append_dropWhile _ _
        have hdw : s1.dropWhile (· ≠ '<') = lc ++ rest := dropPre_eq_some.mp h2
        rw [hs, ← hsplit, hdw, ← hm, hr]
        simp

theorem matchEnclosed_none {lo lc s : List Char} (h : ¬ lo <+: s) :
    matchEnclosed lo lc s = none := by
  unfold matchEnclosed
  cases h1 : dropPre lo s with
  | none => rfl
  | some s1 => exact absurd ⟨s1, (dropPre_eq_some.mp h1).symm⟩ h

theorem stepConsumes_matchEnclosed {lo lc : List Char} (h : lo ≠ []) :
    StepConsumes (matchEnclosed lo lc) := by
  intro s m r hs
  obtain ⟨run, _, hm, hsplit⟩ := matchEnclosed_shape hs
  have : m.length > 0 := by
    rw [hm]
    cases lo with
    | nil => exact absurd rfl h
    | cons x xs => simp
  rw [hsplit]
  simp only [List.length_append]
  omega

theorem containsSub_iff {hay needle : List Char} :
    containsSub hay needle = true ↔ needle <:+: hay := by
  unfold containsSub
  rw [List.any_eq_true]
  constructor
  · rintro ⟨t, ht, hp⟩
    exact List.infix_iff_prefix_suffix.mpr
      ⟨t, List.isPrefixOf_iff_prefix.mp hp, (List.mem_tails _ _).mp ht⟩
  · intro h
    obtain ⟨t, hp, hs⟩ := List.infix_iff_prefix_suffix.mp h
    exact ⟨t, (List.mem_tails _ _).mpr hs, List.isPrefixOf_iff_prefix.mpr hp⟩

theorem containsSub_false_iff {hay needle : List Char} :
    containsSub hay needle = false ↔ ¬ needle <:+: hay := by
  rw [← containsSub_iff]
  cases containsSub hay needle <;> simp

theorem findCloseOrd_shape {s body rest : List Char}
    (h : findCloseOrd s = some (body, rest)) : s = body ++ litOrdClose ++ rest := by
  induction s generalizing body rest with
  | nil => simp [findCloseOrd] at h
  | cons c cs ih =>
    unfold findCloseOrd at h
    cases h1 : dropPre litOrdClose (c :: cs) with
    | some r2 =>
      rw [h1] at h
      dsimp only at h
      simp only [Option.some_inj, Prod.mk.injEq] at h
      obtain ⟨hb, hr⟩ := h
      rw [← hb, ← hr]
      simpa using dropPre_eq_some.mp h1
    | none =>
      rw [h1] at h
      dsimp only at h
      cases h2 : findCloseOrd cs with
      | none => rw [h2] at h; simp at h
      | some p =>
        obtain ⟨b2, r2⟩ := p
        rw [h2] at h
        simp only [Option.map_some', Option.some_inj, Prod.mk.injEq] at h
        obtain ⟨hb, hr⟩ := h
        rw [← hb, ← hr]
        have h3 := ih h2
        simp [h3]

theorem matchOrd3_shape {s m r : List Char} (h : matchOrd3 s = some (m, r)) :
    ∃ run body, '>' ∉ run ∧ m = litOrd ++ run ++ '>' :: (body ++ litOrdClose) ∧
      s = m ++ r := by
  unfold matchOrd3 at h
  cases h1 : dropPre litOrd s with
  | none => rw [h1] at h; exact absurd h (by simp)
  | some s1 =>
    rw [h1] at h
    dsimp only at h
    cases h2 : s1.dropWhile (· ≠ '>') with
    | nil => rw [h2] at h; exact absurd h (by simp)
    | cons c s2 =>
      rw [h2] at h
      dsimp only at h
      by_cases hc : c = '>'
      · rw [if_pos hc] at h
        cases h3 : findCloseOrd s2 with
        | none => rw [h3] at h; exact absurd h (by simp)
        | some p =>
          obtain ⟨body, rest⟩ := p
          rw [h3] at h
          dsimp only at h
          simp only [Option.some_inj, Prod.mk.injEq] at h
          obtain ⟨hm, hr⟩ := h
          refine ⟨s1.takeWhile (· ≠ '>'), body, ?_, hm.symm, ?_⟩
          · intro hmem
            have := List.mem_takeWhile_imp hmem
            simp at this
          · have hs : s = litOrd ++ s1 := dropPre_eq_some.mp h1
            have hsplit : s1.takeWhile (· ≠ '>') ++ s1.dropWhile (· ≠ '>') = s1 :=
              List.takeWhile_append_dropWhile _ _
            have hclose := findCloseOrd_shape h3
            rw [hs, ← hsplit, h2, hc, hclose, ← hm, hr]
            simp
      · rw [if_neg hc] at h
        exact absurd h (by simp)

theorem stepConsumes_matchOrd3 : StepConsumes matchOrd3 := by
  intro s m r hs
  obtain ⟨run, body, _, hm, hsplit⟩ := matchOrd3_shape hs
  have : m.length > 0 := by rw [hm]; simp [litOrd]
  rw [hsplit]
  simp only [List.length_append]
  omega

theorem matchOrd3_none {s : List Char} (h : ¬ litOrd <+: s) : matchOrd3 s = none := by
  unfold matchOrd3
  cases h1 : dropPre litOrd s with
  | none => rfl
  | some s1 => exact absurd ⟨s1, (dropPre_eq_some.mp h1).symm⟩ h

theorem renderTemplate_litItems (w : List Char) (g : List (List Char)) (t : List Char) :
    renderTemplate w g (litItems t) = t := by
  induction t with
  | nil => rfl
  | cons c cs ih =>
    show c :: renderTemplate w g (litItems cs) = c :: cs
    rw [ih]

theorem tmplStep_lit {n : Nat} {c : Char} {cs : List Char} (hc : c ≠ '\\') :
    tmplStep n (c :: cs) = .ok (.lit [c], cs) := by
  unfold tmplStep
  split
  · simp_all
  · simp_all
  · simp_all

theorem parseTemplateF_clean {n : Nat} {t : List Char} (h : '\\' ∉ t) :
    ∀ {fuel : Nat}, t.length ≤ fuel → parseTemplateF n fuel t = .ok (litItems t) := by
  induction t with
  | nil => intro fuel _; cases fuel <;> rfl
  | cons c cs ih =>
    intro fuel hf
    cases fuel with
    | zero => simp at hf
    | succ f =>
      unfold parseTemplateF
      rw [tmplStep_lit fun he => h (by simp [he])]
      dsimp only
      rw [ih (fun hm => h (by simp [hm])) (by simpa using Nat.le_of_succ_le_succ hf)]
      rfl

theorem parseTemplate_clean {n : Nat} {t : List Char} (h : '\\' ∉ t) :
    parseTemplate n t = .ok (litItems t) :=
  parseTemplateF_clean h (le_refl _)

theorem updTemplate_clean {jc : List Char} (h : '\\' ∉ jc) : '\\' ∉ updTemplate jc := by
  intro hm
  rw [updTemplate] at hm
  simp only [List.mem_append] at hm
  rcases hm with (hm | hm) | hm
  · revert hm; decide
  · exact h hm
  · revert hm; decide

theorem insTail_clean {jc : List Char} (h : '\\' ∉ jc) :
    '\\' ∉ nl8 ++ lit1 ++ jc ++ lit1c := by
  intro hm
  simp only [List.mem_append] at hm
  rcases hm with ((hm | hm) | hm) | hm
  · revert hm; decide
  · revert hm; decide
  · exact h hm
  · revert hm; decide

theorem parseTemplate_upd {jc : List Char} (h : '\\' ∉ jc) :
    parseTemplate 0 (updTemplate jc) = .ok (litItems (updTemplate jc)) :=
  parseTemplate_clean (updTemplate_clean h)

theorem tmplStep_ins (jc : List Char) :
    tmplStep 1 (insTemplate jc) = .ok (.grp 1, nl8 ++ lit1 ++ jc ++ lit1c) := rfl

theorem parseTemplate_ins {jc : List Char} (h : '\\' ∉ jc) :
    parseTemplate 1 (insTemplate jc) =
      .ok (.grp 1 :: litItems (nl8 ++ lit1 ++ jc ++ lit1c)) := by
  show parseTemplateF 1 ((nl8 ++ lit1 ++ jc ++ lit1c).length + 1 + 1) (insTemplate jc) = _
  rw [show insTemplate jc = '\\' :: '1' :: (nl8 ++ lit1 ++ jc ++ lit1c) from rfl]
  unfold parseTemplateF
  rw [show tmplStep 1 ('\\' :: '1' :: (nl8 ++ lit1 ++ jc ++ lit1c)) =
    .ok (.grp 1, nl8 ++ lit1 ++ jc ++ lit1c) from tmplStep_ins jc]
  dsimp only
  rw [parseTemplateF_clean (insTail_clean h) (by omega)]
  rfl

theorem renderTemplate_insItems (m : List Char) (g0 : List Char) (t : List Char) :
    renderTemplate m [g0] (.grp 1 :: litItems t) = g0 ++ t := by
  show [g0].getD 0 [] ++ renderTemplate m [g0] (litItems t) = g0 ++ t
  rw [renderTemplate_litItems]
  rfl

theorem zfill_digit {s : List Char} (h : pyIsdigit s = true) :
    zfill 6 s = List.replicate (6 - s.length) '0' ++ s := by
  cases s with
  | nil => simp [pyIsdigit] at h
  | cons c rest =>
    have h2 := h
    unfold pyIsdigit at h2
    simp only [Bool.and_eq_true, List.all_eq_true] at h2
    have hc : c.isDigit = true := h2.2 c (by simp)
    unfold zfill
    dsimp only
    have hpm : ¬ (c = '+' ∨ c = '-') := by
      rintro (rfl | rfl) <;> exact absurd hc (by decide)
    rw [if_neg hpm]
    by_cases hlen : (c :: rest).length < 6
    · rw [if_pos hlen]
    · rw [if_neg hlen]
      have h0 : 6 - (c :: rest).length = 0 := by
        simp only [List.length_cons] at hlen ⊢
        omega
      rw [h0]
      rfl

/-- Claim C9: identifier normalisation equals the reference definition and
is idempotent: a purely numeric string shorter than 6 digits is left-padded
with zeros to length 6, any other string is returned unchanged, and
normalising twice equals normalising once. -/
theorem normalizeOrderId_spec (s : List Char) :
    (pyIsdigit s = true → s.length < 6 →
      normalizeOrderId s = List.replicate (6 - s.length) '0' ++ s) ∧
    (pyIsdigit s = false ∨ 6 ≤ s.length → normalizeOrderId s = s) ∧
    normalizeOrderId (normalizeOrderId s) = normalizeOrderId s := by
  have hpad : pyIsdigit s = true → s.length < 6 →
      normalizeOrderId s = List.replicate (6 - s.length) '0' ++ s := by
    intro hd hl
    unfold normalizeOrderId
    rw [if_pos ⟨hd, hl⟩, zfill_digit hd]
  have hid : pyIsdigit s = false ∨ 6 ≤ s.length → normalizeOrderId s = s := by
    intro h
    unfold normalizeOrderId
    rw [if_neg ?hneg]
    rintro ⟨hd, hl⟩
    rcases h with h | h
    · rw [h] at hd
      cases hd
    · omega
  refine ⟨hpad, hid, ?_⟩
  by_cases hcond : pyIsdigit s = true ∧ s.length < 6
  · obtain ⟨hd, hl⟩ := hcond
    rw [hpad hd hl]
    have hlen : (List.replicate (6 - s.length) '0' ++ s).length = 6 := by
      simp only [List.length_append, List.length_replicate]
      omega
    unfold normalizeOrderId
    rw [if_neg ?hneg2]
    rintro ⟨_, hl2⟩
    rw [hlen] at hl2
    omega
  · have hs : normalizeOrderId s = s := by
      unfold normalizeOrderId
      rw [if_neg hcond]
    rw [hs, hs]

theorem normalizeOrderId_spec_witness :
    pyIsdigit "721".data = true ∧ "721".data.length < 6 ∧
      normalizeOrderId "721".data = "000721".data ∧
      normalizeOrderId (normalizeOrderId "721".data) = normalizeOrderId "721".data := by
  have h := normalizeOrderId_spec "721".data
  refine ⟨by decide, by decide, ?_, h.2.2⟩
  rw [h.1 (by decide) (by decide)]
  decide

/-- Claim C4: any exception raised while `add_customer_job_code` processes
the text is caught; the outcome carries the exception message (the source
spells the outcome `erreur: <message>`, which the specification's
`CorrectionResult` renders as `error: <message>`), and the text returned is
the original input unmodified. -/
theorem add_customer_job_code_catches {xml jc : List Char} {e : String}
    (h : addJobCodeExc xml jc = some e) :
    add_customer_job_code xml jc = (xml, "erreur: " ++ e) := by
  unfold addJobCodeExc at h
  unfold add_customer_job_code
  by_cases h1 : containsSub xml lit1 = true
  · rw [if_pos h1] at h ⊢
    cases hp : parseTemplate 0 (updTemplate jc) with
    | error e2 =>
      rw [hp] at h
      simp only [Option.some_inj] at h
      rw [h]
    | ok items => rw [hp] at h; cases h
  · rw [if_neg h1] at h ⊢
    by_cases h2 : pyFindall matchCcn xml ≠ []
    · rw [if_pos h2] at h ⊢
      cases hp : parseTemplate 1 (insTemplate jc) with
      | error e2 =>
        rw [hp] at h
        simp only [Option.some_inj] at h
        rw [h]
      | ok items => rw [hp] at h; cases h
    · rw [if_neg h2] at h ⊢
      by_cases h3 : pySearch matchOrd3 xml = true
      · rw [if_pos h3] at h ⊢
        cases hp : parseTemplate 1 (insTemplate jc) with
        | error e2 =>
          rw [hp] at h
          simp only [Option.some_inj] at h
          rw [h]
        | ok items => rw [hp] at h; cases h
      · rw [if_neg h3] at h ⊢
        cases h

theorem add_customer_job_code_catches_witness :
    addJobCodeExc "<CustomerJobCode>a</CustomerJobCode>".data "\\1".data =
        some "invalid group reference" ∧
      add_customer_job_code "<CustomerJobCode>a</CustomerJobCode>".data "\\1".data =
        ("<CustomerJobCode>a</CustomerJobCode>".data, "erreur: invalid group reference") :=
  ⟨by decide, add_customer_job_code_catches (by decide)⟩

theorem pyFindall_matchCcn_nil {s : List Char} (h : ¬ lit2o <:+: s) :
    pyFindall matchCcn s = [] := by
  induction s with
  | nil => rfl
  | cons c cs ih =>
    have hstep : matchCcn (c :: cs) = none :=
      matchEnclosed_none fun hp => h hp.isInfix
    rw [pyFindall_cons_none hstep]
    exact ih fun hi => h (List.infix_cons hi)

theorem pySearch_matchOrd3_false {s : List Char} (h : ¬ litOrd <:+: s) :
    pySearch matchOrd3 s = false := by
  induction s with
  | nil => rfl
  | cons c cs ih =>
    have hstep : matchOrd3 (c :: cs) = none :=
      matchOrd3_none fun hp => h hp.isInfix
    rw [pySearch_cons_none hstep]
    exact ih fun hi => h (List.infix_cons hi)

/-- Claim C6, counterexample: a text containing neither a `CostCenterName`
nor an `OrderId` element, on which `add_customer_job_code` does not return
the original text with outcome location-not-found (it contains a
`CustomerJobCode` element, so the update branch fires instead). -/
theorem add_location_not_found_counterexample :
    containsSub "<CustomerJobCode>a</CustomerJobCode>".data lit2o = false ∧
      containsSub "<CustomerJobCode>a</CustomerJobCode>".data litOrd = false ∧
      add_customer_job_code "<CustomerJobCode>a</CustomerJobCode>".data "J".data ≠
        ("<CustomerJobCode>a</CustomerJobCode>".data, "emplacement_non_trouve") := by
  decide

/-- Claim C6, amended: for every text containing no `CustomerJobCode`, no
`CostCenterName` and no `OrderId` markup, `add_customer_job_code` returns
the original text unchanged with the location-not-found outcome (the
source's `emplacement_non_trouve`). -/
theorem add_customer_job_code_location_not_found {xml : List Char} (jc : List Char)
    (h1 : ¬ lit1 <:+: xml) (h2 : ¬ lit2o <:+: xml) (h3 : ¬ litOrd <:+: xml) :
    add_customer_job_code xml jc = (xml, "emplacement_non_trouve") := by
  unfold add_customer_job_code
  rw [if_neg (by rw [containsSub_false_iff.mpr h1]; exact Bool.false_ne_true)]
  rw [if_neg (by rw [pyFindall_matchCcn_nil h2]; exact fun hne => hne rfl)]
  rw [if_neg (by rw [pySearch_matchOrd3_false h3]; exact Bool.false_ne_true)]

theorem add_customer_job_code_location_not_found_witness :
    (¬ lit1 <:+: "<foo>bar</foo>".data) ∧ (¬ lit2o <:+: "<foo>bar</foo>".data) ∧
      (¬ litOrd <:+: "<foo>bar</foo>".data) ∧
      add_customer_job_code "<foo>bar</foo>".data "J".data =
        ("<foo>bar</foo>".data, "emplacement_non_trouve") := by
  have hn1 : containsSub "<foo>bar</foo>".data lit1 = false := by decide
  have hn2 : containsSub "<foo>bar</foo>".data lit2o = false := by decide
  have hn3 : containsSub "<foo>bar</foo>".data litOrd = false := by decide
  have h1 := containsSub_false_iff.mp hn1
  have h2 := containsSub_false_iff.mp hn2
  have h3 := containsSub_false_iff.mp hn3
  exact ⟨h1, h2, h3, add_customer_job_code_location_not_found "J".data h1 h2 h3⟩

/-- Claim C7: if the primary pattern finds exactly two matches, the
extractor returns their stripped, normalised values in document order, with
the duplicate dropped when both normalise to the same identifier. -/
theorem extract_two_matches {xml a b : List Char}
    (h : pyFindall matchOrderNum xml = [a, b]) :
    extract_all_order_numbers xml =
      if normalizeOrderId (pyStrip a) = normalizeOrderId (pyStrip b) then
        [normalizeOrderId (pyStrip a)]
      else [normalizeOrderId (pyStrip a), normalizeOrderId (pyStrip b)] := by
  unfold extract_all_order_numbers
  dsimp only
  rw [h]
  have step1 : collectOrders [a, b] [] =
      collectOrders [b] [normalizeOrderId (pyStrip a)] := by
    unfold collectOrders
    dsimp only
    rw [if_neg (by simp)]
    rfl
  by_cases hab : normalizeOrderId (pyStrip a) = normalizeOrderId (pyStrip b)
  · have step2 : collectOrders [b] [normalizeOrderId (pyStrip a)] =
        [normalizeOrderId (pyStrip a)] := by
      unfold collectOrders
      dsimp only
      rw [if_pos (by rw [hab]; simp)]
      rfl
    rw [step1, step2, if_neg (by simp), if_pos hab]
  · have step2 : collectOrders [b] [normalizeOrderId (pyStrip a)] =
        [normalizeOrderId (pyStrip a), normalizeOrderId (pyStrip b)] := by
      unfold collectOrders
      dsimp only
      rw [if_neg (by simp; exact fun hba => hab hba.symm)]
      rfl
    rw [step1, step2, if_neg (by simp), if_neg hab]

theorem extract_two_matches_witness :
    pyFindall matchOrderNum
        "<OrderId><IdValue>721</IdValue></OrderId><OrderId><IdValue>43</IdValue></OrderId>".data =
      ["721".data, "43".data] ∧
    extract_all_order_numbers
        "<OrderId><IdValue>721</IdValue></OrderId><OrderId><IdValue>43</IdValue></OrderId>".data =
      ["000721".data, "000043".data] := by
  refine ⟨by decide, ?_⟩
  rw [@extract_two_matches _ "721".data "43".data (by decide)]
  decide

theorem collectOrders_ne_nil {ms acc : List (List Char)} (hacc : acc ≠ []) :
    collectOrders ms acc ≠ [] := by
  induction ms generalizing acc with
  | nil => exact hacc
  | cons m rest ih =>
    unfold collectOrders
    dsimp only
    split
    · exact ih hacc
    · exact ih (by simp)

/-- Claim C8: the extractor is total (the source wraps everything in
`try/except` returning `[]`); the structured-XML fallback is consulted only
when the primary regex strategy yields zero identifiers, and when the
structured parse of malformed XML fails the result is silently empty. -/
theorem extract_error_handling (xml : List Char) :
    (pyFindall matchOrderNum xml ≠ [] →
      extract_all_order_numbers xml = collectOrders (pyFindall matchOrderNum xml) []) ∧
    (pyFindall matchOrderNum xml = [] → etFromstring xml = none →
      extract_all_order_numbers xml = []) := by
  constructor
  · intro hne
    unfold extract_all_order_numbers
    dsimp only
    rw [if_neg ?hne2]
    cases hms : pyFindall matchOrderNum xml with
    | nil => exact absurd hms hne
    | cons m rest =>
      unfold collectOrders
      dsimp only
      rw [if_neg (by simp)]
      exact collectOrders_ne_nil (by simp)
  · intro hnil hparse
    unfold extract_all_order_numbers
    dsimp only
    rw [hnil, hparse]
    rfl

theorem extract_error_handling_witness :
    pyFindall matchOrderNum "<a".data = [] ∧
      extract_all_order_numbers "<a".data = [] :=
  ⟨by decide, (extract_error_handling "<a".data).2 (by decide) (by rfl)⟩

/-- Claim C1: with the correction map `{"000721": {"CustomerJobCode":
"JOB42"}}` and an XML text containing `<OrderId><IdValue>721</IdValue>
</OrderId>` followed by `<CostCenterName>X</CostCenterName>` and no
existing `CustomerJobCode`, extraction yields `["000721"]` and applying the
corrections yields the text with `<CustomerJobCode>JOB42</CustomerJobCode>`
inserted immediately after the `CostCenterName` element, plus a report
entry naming order `000721`. -/
theorem end_to_end_000721 :
    extract_all_order_numbers
        "<Order><OrderId><IdValue>721</IdValue></OrderId><CostCenterName>X</CostCenterName></Order>".data =
      ["000721".data] ∧
    apply_corrections_to_xml
        "<Order><OrderId><IdValue>721</IdValue></OrderId><CostCenterName>X</CostCenterName></Order>".data
        ["000721".data]
        [("000721".data, [("CustomerJobCode".data, "JOB42".data)])] =
      ("<Order><OrderId><IdValue>721</IdValue></OrderId><CostCenterName>X</CostCenterName>\n        <CustomerJobCode>JOB42</CustomerJobCode></Order>".data,
        ["Commande 000721 - CustomerJobCode: JOB42 (ajout)"]) :=
  ⟨by decide, by decide⟩

theorem pre_of_pre_append {n w b : List Char} (h : n <+: w ++ b)
    (hl : n.length ≤ w.length) : n <+: w := by
  rw [List.prefix_iff_eq_take] at h ⊢
  rwa [List.take_append_of_le_length hl] at h

theorem isPrefix_head {w b : List Char} (h : w <+: b) (hw : w ≠ []) :
    b.head? = w.head? := by
  obtain ⟨t, rfl⟩ := h
  cases w with
  | nil => exact absurd rfl hw
  | cons x xs => rfl

theorem lit1_drop_head : ∀ k, 1 ≤ k → k < 17 → (lit1.drop k).head? ≠ some '<' := by decide

theorem lit1_length : lit1.length = 17 := by decide

/-- No `<CustomerJobCode>[^<]*</CustomerJobCode>` match can start inside a
text region free of the literal `<CustomerJobCode>`, even when that region
is followed by text beginning with `<`. -/
theorem matchUpd_none_of_suffix {pre b v : List Char} (hpre : ¬ lit1 <:+: pre)
    (hb : b.head? = some '<') (hv : v ≠ []) (hsuf : v <:+ pre) :
    matchUpd (v ++ b) = none := by
  apply matchEnclosed_none
  intro hp
  by_cases hlen : 17 ≤ v.length
  · have hlv : lit1 <+: v := pre_of_pre_append hp (by rw [lit1_length]; exact hlen)
    exact hpre (List.infix_iff_prefix_suffix.mpr ⟨v, hlv, hsuf⟩)
  · push_neg at hlen
    have hvlit : v <+: lit1 :=
      List.prefix_of_prefix_length_le (List.prefix_append v b) hp
        (by rw [lit1_length]; omega)
    obtain ⟨w, hw⟩ := hvlit
    have hvpos : 1 ≤ v.length := by
      cases v with
      | nil => exact absurd rfl hv
      | cons x xs => simp
    have hwne : w ≠ [] := by
      intro h0
      rw [h0, List.append_nil] at hw
      rw [hw, lit1_length] at hlen
      omega
    have hwpre : w <+: b := by
      have h2 : v ++ w <+: v ++ b := hw ▸ hp
      exact (List.prefix_append_right_inj v).mp h2
    have hwhead : w.head? = some '<' := by
      rw [← isPrefix_head hwpre hwne]
      exact hb
    have hwdrop : w = lit1.drop v.length := by
      rw [← hw, List.drop_left]
    exact lit1_drop_head v.length hvpos hlen (hwdrop ▸ hwhead)

theorem pySub_skip {step : List Char → Option (List Char × List Char)}
    {f : List Char → List Char} {a b : List Char}
    (h : ∀ u v, a = u ++ v → v ≠ [] → step (v ++ b) = none) :
    pySub step f (a ++ b) = a ++ pySub step f b := by
  induction a with
  | nil => rfl
  | cons x a2 ih =>
    have h0 : step (x :: (a2 ++ b)) = none := by
      have := h [] (x :: a2) rfl (by simp)
      simpa using this
    rw [show (x :: a2) ++ b = x :: (a2 ++ b) from rfl, pySub_cons_none h0]
    rw [ih fun u v huv hvne => h (x :: u) v (by rw [huv]; rfl) hvne]
    rfl

theorem pySub_matchUpd_id {f : List Char → List Char} {s : List Char}
    (h : ¬ lit1 <:+: s) : pySub matchUpd f s = s := by
  induction s with
  | nil => rfl
  | cons c cs ih =>
    have hstep : matchUpd (c :: cs) = none :=
      matchEnclosed_none fun hp => h hp.isInfix
    rw [pySub_cons_none hstep, ih fun hi => h (List.infix_cons hi)]

theorem matchUpd_of_shape {run t : List Char} (h : '<' ∉ run) :
    matchUpd (lit1 ++ (run ++ (lit1c ++ t))) = some (lit1 ++ (run ++ lit1c), t) :=
  matchEnclosed_of_shape h

theorem stepConsumes_matchUpd : StepConsumes matchUpd :=
  stepConsumes_matchEnclosed (by decide)

/-- Claim C5: on a text that contains a single well-formed
`CustomerJobCode` element (its content `old` holding no markup, per the
spec's stated pattern assumption) and the literal `<CustomerJobCode>`
nowhere else, applying `add_customer_job_code` with a backslash-free
`job_code` replaces only that element's text content, returns the update
outcome (the source's `mise_a_jour`), and does not add a second
`CustomerJobCode` element. -/
theorem add_customer_job_code_updates {pre old post jc : List Char}
    (hpre : ¬ lit1 <:+: pre) (hpost : ¬ lit1 <:+: post)
    (hold : '<' ∉ old) (hjc : '\\' ∉ jc) :
    add_customer_job_code (pre ++ (lit1 ++ (old ++ (lit1c ++ post)))) jc =
      (pre ++ (lit1 ++ (jc ++ (lit1c ++ post))), "mise_a_jour") := by
  unfold add_customer_job_code
  have hcontains : containsSub (pre ++ (lit1 ++ (old ++ (lit1c ++ post)))) lit1 = true := by
    rw [containsSub_iff]
    exact ⟨pre, old ++ (lit1c ++ post), by simp⟩
  rw [if_pos hcontains, parseTemplate_upd hjc]
  dsimp only
  rw [pySub_congr fun m => renderTemplate_litItems m [] (updTemplate jc)]
  rw [pySub_skip fun u v huv hvne =>
    matchUpd_none_of_suffix hpre (by rfl) hvne ⟨u, huv.symm⟩]
  rw [pySub_cons_some stepConsumes_matchUpd (matchUpd_of_shape hold)]
  rw [pySub_matchUpd_id hpost]
  rw [show updTemplate jc = lit1 ++ (jc ++ lit1c) by rw [updTemplate]; simp]
  simp

theorem add_customer_job_code_updates_witness :
    add_customer_job_code
        ("<a>".data ++ (lit1 ++ ("old".data ++ (lit1c ++ "</a>".data)))) "NEW".data =
      ("<a>".data ++ (lit1 ++ ("NEW".data ++ (lit1c ++ "</a>".data))), "mise_a_jour") := by
  rw [add_customer_job_code_updates (by decide) (by decide) (by decide) (by decide)]

theorem suffix_append_cases {v x y : List Char} (h : v <:+ x ++ y) :
    v <:+ y ∨ ∃ w1, w1 <:+ x ∧ w1 ≠ [] ∧ v = w1 ++ y := by
  obtain ⟨u, hu⟩ := h
  rcases List.append_eq_append_iff.mp hu with ⟨a2, hx, hv⟩ | ⟨c2, hu2, hy⟩
  · cases a2 with
    | nil => left; rw [hv]; exact List.suffix_refl y
    | cons z zs => exact Or.inr ⟨z :: zs, ⟨u, hx.symm⟩, by simp, hv⟩
  · exact Or.inl ⟨c2, hy.symm⟩

theorem infix_append_cases {n x y : List Char} (h : n <:+: x ++ y) :
    n <:+: x ∨ n <:+: y ∨
      ∃ n1 n2, n = n1 ++ n2 ∧ n1 ≠ [] ∧ n2 ≠ [] ∧ n1 <:+ x ∧ n2 <+: y := by
  obtain ⟨s, t, hst⟩ := h
  rcases List.append_eq_append_iff.mp hst with ⟨a2, hx, ht⟩ | ⟨c2, hsn, hy⟩
  · exact Or.inl ⟨s, a2, hx.symm⟩
  · rcases List.append_eq_append_iff.mp hsn with ⟨a3, hx, hn⟩ | ⟨c3, hs, hc2⟩
    · cases a3 with
      | nil =>
        refine Or.inr (Or.inl ⟨[], t, ?_⟩)
        simp only [List.nil_append] at hn
        rw [hy, hn]
        simp
      | cons z zs =>
        cases hc : c2 with
        | nil =>
          refine Or.inl ⟨s, [], ?_⟩
          rw [hc, List.append_nil] at hn
          rw [hx, hn]
          simp
        | cons w ws =>
          exact Or.inr (Or.inr ⟨z :: zs, c2, hn, by simp, by simp [hc],
            ⟨s, hx.symm⟩, ⟨t, hy.symm⟩⟩)
    · refine Or.inr (Or.inl ⟨c3, t, ?_⟩)
      rw [hy, hc2]

theorem suffix_short {w x y : List Char} (h : w <:+ x ++ y) (hl : w.length ≤ y.length) :
    w <:+ y := by
  rcases suffix_append_cases h with h2 | ⟨w1, _, hw1ne, rfl⟩
  · exact h2
  · exfalso
    have : w1.length + y.length ≤ y.length := by simpa using hl
    cases w1 with
    | nil => exact hw1ne rfl
    | cons z zs => simp at this

theorem suffix_head_mem {v a : List Char} {x : Char} (hsuf : v <:+ a)
    (hh : v.head? = some x) : x ∈ a := by
  cases v with
  | nil => cases hh
  | cons c cs =>
    simp only [List.head?_cons, Option.some_inj] at hh
    exact hsuf.subset (by simp [hh])

theorem matchUpd_none_head {s : List Char} (h : s.head? ≠ some '<') :
    matchUpd s = none := by
  apply matchEnclosed_none
  intro hp
  apply h
  rw [isPrefix_head hp (by decide)]
  rfl

theorem updTemplate_assoc (jc : List Char) :
    updTemplate jc = lit1 ++ (jc ++ lit1c) := by
  rw [updTemplate]
  simp

theorem matchUpd_r1 {jc : List Char} (hjc : '<' ∉ jc) (t : List Char) :
    matchUpd (updTemplate jc ++ t) = some (updTemplate jc, t) := by
  have h := @matchUpd_of_shape jc t hjc
  rw [updTemplate_assoc]
  rw [show (lit1 ++ (jc ++ lit1c)) ++ t = lit1 ++ (jc ++ (lit1c ++ t)) by simp]
  exact h

theorem lit1c_drop_head : ∀ k, 1 ≤ k → k < 18 → (lit1c.drop k).head? ≠ some '<' := by decide

theorem lit1_drop_head_nl : ∀ k, k < 17 → (lit1.drop k).head? ≠ some '\n' := by decide

theorem updSub_cons_none {jc : List Char} {c : Char} {cs : List Char}
    (h : matchUpd (c :: cs) = none) :
    updSub jc (c :: cs) = c :: updSub jc cs := pySub_cons_none h

theorem updSub_cons_some {jc s m r : List Char} (h : matchUpd s = some (m, r)) :
    updSub jc s = updTemplate jc ++ updSub jc r :=
  pySub_cons_some stepConsumes_matchUpd h

/-- A nonempty proper tail of a `<CustomerJobCode>[^<]*</CustomerJobCode>`
match shape that starts with `<` can only be the closing literal. -/
theorem matchShape_tail {run u m2 : List Char} (hrun : '<' ∉ run)
    (hu : u ≠ []) (hm : u ++ m2 = lit1 ++ run ++ lit1c)
    (hhead : m2.head? = some '<') : m2 = lit1c := by
  rcases List.append_eq_append_iff.mp hm with ⟨a2, hx, hm2⟩ | ⟨c2, _, hlc⟩
  · rcases List.append_eq_append_iff.mp hx with ⟨p, _, hrun2⟩ | ⟨q, hlit, ha2⟩
    · cases a2 with
      | nil => rw [hm2]; rfl
      | cons r rs =>
        exfalso
        have hrmem : r ∈ run := by rw [hrun2]; simp
        have : r = '<' := by
          rw [hm2] at hhead
          simpa using hhead
        exact hrun (this ▸ hrmem)
    · cases q with
      | nil =>
        rw [List.append_nil] at hlit
        simp only [List.nil_append] at ha2
        cases hrn : run with
        | nil => rw [hm2, ha2, hrn]; rfl
        | cons r rs =>
          exfalso
          have : r = '<' := by
            rw [hm2, ha2, hrn] at hhead
            simpa using hhead
          exact hrun (by rw [hrn]; simp [this])
      | cons z zs =>
        exfalso
        have hulen1 : 1 ≤ u.length := by
          cases u with
          | nil => exact absurd rfl hu
          | cons a as => simp
        have hulen17 : u.length < 17 := by
          have := congrArg List.length hlit
          simp only [List.length_append, List.length_cons] at this
          have h17 : lit1.length = 17 := lit1_length
          omega
        have hq : z :: zs = lit1.drop u.length := by rw [hlit, List.drop_left]
        have : m2.head? = some z := by
          rw [hm2, ha2]
          rfl
        rw [hhead] at this
        have hz : z = '<' := by simpa using this.symm
        exact lit1_drop_head u.length hulen1 hulen17 (by rw [← hq, hz]; rfl)
  · cases c2 with
    | nil => simpa using hlc.symm
    | cons z zs =>
      exfalso
      have hm2ne : m2 ≠ [] := by
        intro h0
        rw [h0] at hhead
        cases hhead
      have hlen : (z :: zs).length < 18 := by
        have := congrArg List.length hlc
        simp only [List.length_append] at this
        have h18 : lit1c.length = 18 := by decide
        cases m2 with
        | nil => exact absurd rfl hm2ne
        | cons a as => simp only [List.length_cons] at this ⊢; omega
      have hdrop : m2 = lit1c.drop (z :: zs).length := by rw [hlc, List.drop_left]
      exact lit1c_drop_head (z :: zs).length (by simp) hlen (hdrop ▸ hhead)

/-- If a nonempty proper tail of a match shape is a prefix of the updated
text `updSub jc cs`, it is already a prefix of `cs`: replacements never
create such a prefix. -/
theorem updSub_pre_transfer {jc : List Char} :
    ∀ (n : Nat) (cs : List Char), cs.length ≤ n → ∀ m2 t,
      m2 ++ t = updSub jc cs →
      (∃ run u, '<' ∉ run ∧ u ≠ [] ∧ u ++ m2 = lit1 ++ run ++ lit1c) →
      ∃ t2, m2 ++ t2 = cs := by
  intro n
  induction n with
  | zero =>
    intro cs hl m2 t hmt _
    match cs, hl with
    | [], _ =>
      have hm2 : m2 = [] := by
        have h0 : m2 ++ t = [] := hmt
        exact (List.append_eq_nil.mp h0).1
      exact ⟨[], by simp [hm2]⟩
  | succ n ih =>
    intro cs hl m2 t hmt hshape
    cases cs with
    | nil =>
      have hm2 : m2 = [] := by
        have h0 : m2 ++ t = [] := hmt
        exact (List.append_eq_nil.mp h0).1
      exact ⟨[], by simp [hm2]⟩
    | cons c cs2 =>
      by_cases hm2nil : m2 = []
      · exact ⟨c :: cs2, by simp [hm2nil]⟩
      · cases hmu : matchUpd (c :: cs2) with
        | some v =>
          obtain ⟨m, r⟩ := v
          rw [updSub_cons_some hmu] at hmt
          obtain ⟨run, u, hrun, hu, hsh⟩ := hshape
          exfalso
          have hm2head : m2.head? = some '<' := by
            have h1 : (m2 ++ t).head? = some '<' := by rw [hmt]; rfl
            cases m2 with
            | nil => exact absurd rfl hm2nil
            | cons a as => simpa using h1
          have hm2lit : m2 = lit1c := matchShape_tail hrun hu hsh hm2head
          rw [hm2lit] at hmt
          have h2 : (lit1c ++ t)[1]? = (updTemplate jc ++ updSub jc r)[1]? :=
            by rw [hmt]
          rw [show (lit1c ++ t)[1]? = some '/' from rfl,
            show (updTemplate jc ++ updSub jc r)[1]? = some 'C' from rfl] at h2
          exact absurd (Option.some_inj.mp h2) (by decide)
        | none =>
          rw [updSub_cons_none hmu] at hmt
          cases m2 with
          | nil => exact absurd rfl hm2nil
          | cons a m2x =>
            rw [List.cons_append] at hmt
            injection hmt with hac hmt2
            by_cases hm2xnil : m2x = []
            · exact ⟨cs2, by rw [hm2xnil, hac]; rfl⟩
            · obtain ⟨run, u, hrun, hu, hsh⟩ := hshape
              have hsh2 : (u ++ [a]) ++ m2x = lit1 ++ run ++ lit1c := by
                rw [← hsh]
                simp
              obtain ⟨t2, ht2⟩ := ih cs2 (by simpa using Nat.le_of_succ_le_succ hl) m2x t
                hmt2 ⟨run, u ++ [a], hrun, by simp, hsh2⟩
              exact ⟨t2, by rw [List.cons_append, ht2, hac]⟩

/-- A position with no match keeps having no match after the tail is
updated. -/
theorem matchUpd_none_transfer {jc : List Char} {c : Char}
    {cs : List Char} (h : matchUpd (c :: cs) = none) :
    matchUpd (c :: updSub jc cs) = none := by
  cases hm : matchUpd (c :: updSub jc cs) with
  | none => rfl
  | some v =>
    exfalso
    obtain ⟨m, r⟩ := v
    obtain ⟨run, hrun, hmshape, hsplit⟩ := matchEnclosed_shape hm
    cases m with
    | nil =>
      have : ([] : List Char).length = (lit1 ++ run ++ lit1c).length := by rw [hmshape]
      simp [lit1, lit1c] at this
    | cons a m1 =>
      rw [List.cons_append] at hsplit
      injection hsplit with hac hm1r
      obtain ⟨t2, ht2⟩ := updSub_pre_transfer cs.length cs le_rfl m1 r hm1r.symm
        ⟨run, [a], hrun, by simp, by simpa using hmshape⟩
      have hmatch : matchUpd (c :: cs) = some (a :: m1, t2) := by
        have hcs : c :: cs = (a :: m1) ++ t2 := by
          rw [List.cons_append, ht2, hac]
        rw [hcs, hmshape]
        rw [show ((lit1 ++ run) ++ lit1c) ++ t2 = lit1 ++ (run ++ (lit1c ++ t2)) by simp]
        rw [matchUpd_of_shape hrun]
        simp
      rw [hmatch] at h
      cases h

/-- The update substitution is idempotent on every text, for a `job_code`
holding no `<`. -/
theorem updSub_fix {jc : List Char} (hjc : '<' ∉ jc) :
    ∀ (n : Nat) (s : List Char), s.length ≤ n →
      updSub jc (updSub jc s) = updSub jc s := by
  intro n
  induction n with
  | zero =>
    intro s hl
    match s, hl with
    | [], _ => rfl
  | succ n ih =>
    intro s hl
    cases s with
    | nil => rfl
    | cons c cs =>
      cases hmu : matchUpd (c :: cs) with
      | some v =>
        obtain ⟨m, r⟩ := v
        rw [updSub_cons_some hmu]
        rw [updSub_cons_some (matchUpd_r1 hjc (updSub jc r))]
        congr 1
        have hr := stepConsumes_matchUpd _ _ _ hmu
        simp only [List.length_cons] at hr hl
        exact ih r (by omega)
      | none =>
        rw [updSub_cons_none hmu]
        rw [updSub_cons_none (matchUpd_none_transfer hmu)]
        congr 1
        simp only [List.length_cons] at hl
        exact ih cs (by omega)

theorem updSub_goodBlocks {jc : List Char} (hjc : '<' ∉ jc) {s : List Char}
    (h : GoodBlocks (updTemplate jc) s) : updSub jc s = s := by
  induction h with
  | nil => rfl
  | keep hnp _ ih => rw [updSub_cons_none (matchEnclosed_none hnp), ih]
  | block _ ih => rw [updSub_cons_some (matchUpd_r1 hjc _), ih]

theorem goodBlocks_append {r a b : List Char}
    (ha : ∀ v, v <:+ a → v ≠ [] → ¬ lit1 <+: v ++ b) (hb : GoodBlocks r b) :
    GoodBlocks r (a ++ b) := by
  induction a with
  | nil => simpa
  | cons x a2 ih =>
    refine GoodBlocks.keep ?_ (ih fun v hv hvne => ha v (hv.trans (List.suffix_cons x a2)) hvne)
    have h0 := ha (x :: a2) (List.suffix_refl _) (by simp)
    simpa using h0

/-- No update match can begin inside an inserted-element region `m ++ nl8`
when the original text `s` is free of the literal `<CustomerJobCode>` and
every short suffix of the matched region `m` avoids starting with `<`. -/
theorem no_lit1_in_block {s m v b : List Char}
    (hNo : ¬ lit1 <:+: s) (hm : m <+: s)
    (hend : ∀ w1, w1 <:+ m → w1 ≠ [] → w1.length < 8 → w1.head? ≠ some '<')
    (hv : v <:+ m ++ nl8) (hvne : v ≠ []) : ¬ lit1 <+: v ++ b := by
  intro hp
  by_cases hlen : 17 ≤ v.length
  · have hli : lit1 <+: v := pre_of_pre_append hp (by rw [lit1_length]; omega)
    have hinf : lit1 <:+: m ++ nl8 := List.infix_iff_prefix_suffix.mpr ⟨v, hli, hv⟩
    rcases infix_append_cases hinf with hm2 | hn | ⟨n1, n2, hsplit, hn1, hn2, hsuf1, hpre2⟩
    · exact hNo (hm2.trans hm.isInfix)
    · have h1 := hn.length_le
      rw [lit1_length] at h1
      have h2 : nl8.length = 9 := by decide
      omega
    · have hh : n2.head? = some '\n' := by
        rw [← isPrefix_head hpre2 hn2]
        rfl
      have hn2drop : n2 = lit1.drop n1.length := by
        rw [hsplit, List.drop_left]
      have hlt : n1.length < 17 := by
        have h3 := congrArg List.length hsplit
        rw [lit1_length] at h3
        simp only [List.length_append] at h3
        cases n2 with
        | nil => exact absurd rfl hn2
        | cons z zs => simp only [List.length_cons] at h3; omega
      exact lit1_drop_head_nl n1.length hlt (by rw [← hn2drop]; exact hh)
  · push_neg at hlen
    have hvhead : v.head? ≠ some '<' := by
      rcases suffix_append_cases hv with hv9 | ⟨w1, hw1suf, hw1ne, rfl⟩
      · intro hh
        have h4 : '<' ∈ nl8 := suffix_head_mem hv9 hh
        revert h4
        decide
      · have hw1len : w1.length < 8 := by
          have hnl : nl8.length = 9 := by decide
          rw [List.length_append, hnl] at hlen
          omega
        have h0 := hend w1 hw1suf hw1ne hw1len
        intro hh
        apply h0
        cases w1 with
        | nil => exact absurd rfl hw1ne
        | cons z zs => simpa using hh
    apply hvhead
    have h17 : lit1 ≠ [] := by decide
    cases v with
    | nil => exact absurd rfl hvne
    | cons z zs =>
      have h1 : ((z :: zs) ++ b).head? = some '<' := by
        rw [isPrefix_head hp h17]
        rfl
      simpa using h1

/-- For an insertion scan whose matches all start with `<` and whose
replacement appends after the match, a `<`-free prefix of the output is a
prefix of the input. -/
theorem pySub_pre_transfer {step : List Char → Option (List Char × List Char)}
    {ext : List Char} (hstep : StepConsumes step)
    (hhead : ∀ s2 m r, step s2 = some (m, r) → m.head? = some '<') :
    ∀ (n : Nat) (cs : List Char), cs.length ≤ n → ∀ q,
      '<' ∉ q → q <+: pySub step (fun m => m ++ ext) cs → q <+: cs := by
  intro n
  induction n with
  | zero =>
    intro cs hl q hq hpre
    match cs, hl with
    | [], _ => exact hpre
  | succ n ih =>
    intro cs hl q hq hpre
    cases cs with
    | nil => exact hpre
    | cons c cs2 =>
      cases hs : step (c :: cs2) with
      | some v =>
        obtain ⟨m, r⟩ := v
        rw [pySub_cons_some hstep hs] at hpre
        cases q with
        | nil => exact List.nil_prefix
        | cons a q2 =>
          exfalso
          have hmh := hhead _ _ _ hs
          have ha : a = '<' := by
            have h1 := isPrefix_head hpre (by simp)
            cases m with
            | nil => cases hmh
            | cons b bs =>
              simp only [List.head?_cons, Option.some_inj] at hmh
              rw [show ((b :: bs ++ ext) ++ pySub step (fun m => m ++ ext) r).head? =
                some b from rfl] at h1
              simp only [List.head?_cons, Option.some_inj] at h1
              rw [← h1, hmh]
          exact hq (by simp [ha])
      | none =>
        rw [pySub_cons_none hs] at hpre
        cases q with
        | nil => exact List.nil_prefix
        | cons a q2 =>
          obtain ⟨t, ht⟩ := hpre
          rw [List.cons_append] at ht
          injection ht with h1 h2
          have hq2 : q2 <+: cs2 :=
            ih cs2 (by simp only [List.length_cons] at hl; omega) q2
              (fun hmem => hq (by simp [hmem])) ⟨t, h2⟩
          rw [h1]
          exact List.cons_prefix_cons.mpr ⟨rfl, hq2⟩

/-- The update substitution preserves the presence of the literal
`<CustomerJobCode>`. -/
theorem lit1_infix_updSub {jc : List Char} :
    ∀ (n : Nat) (s : List Char), s.length ≤ n → lit1 <:+: s →
      lit1 <:+: updSub jc s := by
  intro n
  induction n with
  | zero =>
    intro s hl hinf
    match s, hl with
    | [], _ => exact hinf
  | succ n ih =>
    intro s hl hinf
    cases s with
    | nil => exact hinf
    | cons c cs =>
      cases hmu : matchUpd (c :: cs) with
      | some v =>
        obtain ⟨m, r⟩ := v
        rw [updSub_cons_some hmu]
        have hpre : lit1 <+: updTemplate jc := by
          rw [updTemplate_assoc]
          exact List.prefix_append _ _
        exact hpre.isInfix.trans ⟨[], updSub jc r, by simp⟩
      | none =>
        rw [updSub_cons_none hmu]
        rcases List.infix_cons_iff.mp hinf with hpre | hinf2
        · obtain ⟨t, ht⟩ := hpre
          have hlit : lit1 = '<' :: "CustomerJobCode>".data := rfl
          rw [hlit, List.cons_append] at ht
          injection ht with hc1 hcs
          have hskip : updSub jc ("CustomerJobCode>".data ++ t) =
              "CustomerJobCode>".data ++ updSub jc t := by
            apply pySub_skip
            intro u v huv hvne
            apply matchUpd_none_head
            intro hh
            have hvsuf : v <:+ "CustomerJobCode>".data := ⟨u, huv.symm⟩
            cases v with
            | nil => exact hvne rfl
            | cons z zs =>
              have hz : z = '<' := by simpa using hh
              have hzm : z ∈ "CustomerJobCode>".data :=
                suffix_head_mem hvsuf (by simp)
              rw [hz] at hzm
              revert hzm
              decide
          rw [← hcs, hskip]
          refine List.IsPrefix.isInfix ⟨updSub jc t, ?_⟩
          rw [hlit, ← hc1]
          rfl
        · simp only [List.length_cons] at hl
          exact List.infix_cons (ih cs (by omega) hinf2)

theorem matchCcn_head {s m r : List Char} (h : matchCcn s = some (m, r)) :
    m.head? = some '<' := by
  obtain ⟨run, _, hm, _⟩ := matchEnclosed_shape h
  rw [hm]
  rfl

theorem matchCcn_split {s m r : List Char} (h : matchCcn s = some (m, r)) :
    s = m ++ r := by
  obtain ⟨run, _, _, hs⟩ := matchEnclosed_shape h
  exact hs

theorem stepConsumes_matchCcn : StepConsumes matchCcn :=
  stepConsumes_matchEnclosed (by decide)

theorem lit2c_drop_head : ∀ k, 10 ≤ k → k ≤ 17 → (lit2c.drop k).head? ≠ some '<' := by
  decide

theorem litOrdClose_drop_head :
    ∀ k, 3 ≤ k → k ≤ 10 → (litOrdClose.drop k).head? ≠ some '<' := by decide

theorem matchCcn_hend {s m r : List Char} (h : matchCcn s = some (m, r)) :
    ∀ w1, w1 <:+ m → w1 ≠ [] → w1.length < 8 → w1.head? ≠ some '<' := by
  obtain ⟨run, hrun, hm, _⟩ := matchEnclosed_shape h
  intro w1 hw1 hne hlen
  rw [hm] at hw1
  have h18 : lit2c.length = 17 := by decide
  have hw1c : w1 <:+ lit2c := suffix_short hw1 (by omega)
  have hdrop : w1 = lit2c.drop (lit2c.length - w1.length) :=
    List.suffix_iff_eq_drop.mp hw1c
  have hpos : 1 ≤ w1.length := List.length_pos.mpr hne
  rw [hdrop]
  exact lit2c_drop_head _ (by omega) (by omega)

theorem matchOrd3_head {s m r : List Char} (h : matchOrd3 s = some (m, r)) :
    m.head? = some '<' := by
  obtain ⟨run, body, _, hm, _⟩ := matchOrd3_shape h
  rw [hm]
  rfl

theorem matchOrd3_split {s m r : List Char} (h : matchOrd3 s = some (m, r)) :
    s = m ++ r := by
  obtain ⟨run, body, _, _, hs⟩ := matchOrd3_shape h
  exact hs

theorem matchOrd3_hend {s m r : List Char} (h : matchOrd3 s = some (m, r)) :
    ∀ w1, w1 <:+ m → w1 ≠ [] → w1.length < 8 → w1.head? ≠ some '<' := by
  obtain ⟨run, body, hrun, hm, _⟩ := matchOrd3_shape h
  intro w1 hw1 hne hlen
  have hm2 : m = ((litOrd ++ run) ++ ('>' :: body)) ++ litOrdClose := by
    rw [hm]
    simp
  rw [hm2] at hw1
  have h10 : litOrdClose.length = 10 := by decide
  have hw1c : w1 <:+ litOrdClose := suffix_short hw1 (by omega)
  have hdrop : w1 = litOrdClose.drop (litOrdClose.length - w1.length) :=
    List.suffix_iff_eq_drop.mp hw1c
  have hpos : 1 ≤ w1.length := List.length_pos.mpr hne
  rw [hdrop]
  exact litOrdClose_drop_head _ (by omega) (by omega)

/-- Insertion-scan output over a text free of `<CustomerJobCode>` consists
of kept characters and exact replacement blocks. -/
theorem insSub_goodBlocks {jc : List Char}
    {step : List Char → Option (List Char × List Char)} (hstep : StepConsumes step)
    (hhead : ∀ s2 m r, step s2 = some (m, r) → m.head? = some '<')
    (hsplit : ∀ s2 m r, step s2 = some (m, r) → s2 = m ++ r)
    (hendAll : ∀ s2 m r, step s2 = some (m, r) →
      ∀ w1, w1 <:+ m → w1 ≠ [] → w1.length < 8 → w1.head? ≠ some '<') :
    ∀ (n : Nat) (s : List Char), s.length ≤ n → ¬ lit1 <:+: s →
      GoodBlocks (updTemplate jc)
        (pySub step (fun m => m ++ (nl8 ++ updTemplate jc)) s) := by
  intro n
  induction n with
  | zero =>
    intro s hl _
    match s, hl with
    | [], _ => exact GoodBlocks.nil
  | succ n ih =>
    intro s hl hNo
    cases s with
    | nil => exact GoodBlocks.nil
    | cons c cs =>
      cases hs : step (c :: cs) with
      | some v =>
        obtain ⟨m, r⟩ := v
        rw [pySub_cons_some hstep hs]
        have hassoc :
            (m ++ (nl8 ++ updTemplate jc)) ++
                pySub step (fun m => m ++ (nl8 ++ updTemplate jc)) r =
              (m ++ nl8) ++
                (updTemplate jc ++
                  pySub step (fun m => m ++ (nl8 ++ updTemplate jc)) r) := by
          simp
        rw [hassoc]
        have hsp := hsplit _ _ _ hs
        have hrlen := hstep _ _ _ hs
        simp only [List.length_cons] at hrlen hl
        apply goodBlocks_append
        · intro v hv hvne
          exact no_lit1_in_block hNo ⟨r, hsp.symm⟩ (hendAll _ _ _ hs) hv hvne
        · refine GoodBlocks.block (ih r (by omega) ?_)
          intro hinf
          exact hNo (hinf.trans (List.IsSuffix.isInfix ⟨m, hsp.symm⟩))
      | none =>
        rw [pySub_cons_none hs]
        simp only [List.length_cons] at hl
        refine GoodBlocks.keep ?_ (ih cs (by omega) fun hinf => hNo (List.infix_cons hinf))
        intro hp
        have hlit : lit1 = '<' :: "CustomerJobCode>".data := rfl
        obtain ⟨t, ht⟩ := hp
        rw [hlit, List.cons_append] at ht
        injection ht with hc1 hcs
        obtain ⟨t2, ht2⟩ := pySub_pre_transfer hstep hhead cs.length cs le_rfl
          "CustomerJobCode>".data (by decide) ⟨t, hcs⟩
        apply hNo
        refine List.IsPrefix.isInfix ⟨t2, ?_⟩
        rw [hlit, List.cons_append, ht2, hc1]

/-- A successful search leaves the literal `<CustomerJobCode>` somewhere in
the insertion-scan output. -/
theorem lit1_infix_insSub {jc : List Char}
    {step : List Char → Option (List Char × List Char)} (hstep : StepConsumes step) :
    ∀ (n : Nat) (s : List Char), s.length ≤ n → pySearch step s = true →
      lit1 <:+: pySub step (fun m => m ++ (nl8 ++ updTemplate jc)) s := by
  intro n
  induction n with
  | zero =>
    intro s hl hse
    match s, hl with
    | [], _ => cases hse
  | succ n ih =>
    intro s hl hse
    cases s with
    | nil => cases hse
    | cons c cs =>
      cases hs : step (c :: cs) with
      | some v =>
        obtain ⟨m, r⟩ := v
        rw [pySub_cons_some hstep hs]
        have h1 : lit1 <:+: updTemplate jc := ⟨[], jc ++ lit1c, by rw [updTemplate_assoc]; simp⟩
        refine h1.trans ⟨m ++ nl8, pySub step (fun m => m ++ (nl8 ++ updTemplate jc)) r, ?_⟩
        simp
      | none =>
        rw [pySub_cons_none hs]
        rw [pySearch_cons_none hs] at hse
        simp only [List.length_cons] at hl
        exact List.infix_cons (ih cs (by omega) hse)

theorem pySearch_of_findall {step : List Char → Option (List Char × List Char)} :
    ∀ (n : Nat) (s : List Char), s.length ≤ n → pyFindall step s ≠ [] →
      pySearch step s = true := by
  intro n
  induction n with
  | zero =>
    intro s hl hne
    match s, hl with
    | [], _ => exact absurd rfl hne
  | succ n ih =>
    intro s hl hne
    cases s with
    | nil => exact absurd rfl hne
    | cons c cs =>
      cases hs : step (c :: cs) with
      | some v =>
        obtain ⟨m, r⟩ := v
        exact pySearch_cons_some hs
      | none =>
        rw [pySearch_cons_none hs]
        rw [pyFindall_cons_none hs] at hne
        simp only [List.length_cons] at hl
        exact ih cs (by omega) hne

/-- Branch characterisation: update branch. -/
theorem add_branch_update {xml jc : List Char} (hc : containsSub xml lit1 = true)
    (hjc : '\\' ∉ jc) :
    add_customer_job_code xml jc = (updSub jc xml, "mise_a_jour") := by
  unfold add_customer_job_code
  rw [if_pos hc, parseTemplate_upd hjc]
  dsimp only
  rw [pySub_congr fun m => renderTemplate_litItems m [] (updTemplate jc)]
  rfl

/-- Branch characterisation: insertion after `CostCenterName`. -/
theorem add_branch_ccn {xml jc : List Char} (hc : containsSub xml lit1 = false)
    (hf : pyFindall matchCcn xml ≠ []) (hjc : '\\' ∉ jc) :
    add_customer_job_code xml jc =
      (pySub matchCcn (fun m => m ++ (nl8 ++ updTemplate jc)) xml, "ajout") := by
  unfold add_customer_job_code
  rw [if_neg (by rw [hc]; exact Bool.false_ne_true), if_pos hf, parseTemplate_ins hjc]
  dsimp only
  rw [pySub_congr fun m => ?_]
  rw [renderTemplate_insItems]
  rw [updTemplate]
  simp

/-- Branch characterisation: fallback insertion after `OrderId`. -/
theorem add_branch_ord {xml jc : List Char} (hc : containsSub xml lit1 = false)
    (hf : pyFindall matchCcn xml = []) (hs : pySearch matchOrd3 xml = true)
    (hjc : '\\' ∉ jc) :
    add_customer_job_code xml jc =
      (pySub matchOrd3 (fun m => m ++ (nl8 ++ updTemplate jc)) xml,
        "ajout_alternatif") := by
  unfold add_customer_job_code
  rw [if_neg (by rw [hc]; exact Bool.false_ne_true),
    if_neg (by rw [hf]; exact fun h => h rfl), if_pos hs, parseTemplate_ins hjc]
  dsimp only
  rw [pySub_congr fun m => ?_]
  rw [renderTemplate_insItems]
  rw [updTemplate]
  simp

/-- Branch characterisation: nothing found. -/
theorem add_branch_none {xml jc : List Char} (hc : containsSub xml lit1 = false)
    (hf : pyFindall matchCcn xml = []) (hs : pySearch matchOrd3 xml = false) :
    add_customer_job_code xml jc = (xml, "emplacement_non_trouve") := by
  unfold add_customer_job_code
  rw [if_neg (by rw [hc]; exact Bool.false_ne_true),
    if_neg (by rw [hf]; exact fun h => h rfl), if_neg (by rw [hs]; exact Bool.false_ne_true)]

/-- Claim C3, counterexample: re-application is not idempotent for every
`job_code`: with `job_code = "x</CustomerJobCode>y"`, the first application
inserts after `CostCenterName` and the second application's update branch
rewrites the broken element, producing a longer, different text. -/
theorem add_customer_job_code_not_idempotent :
    (add_customer_job_code
        ((add_customer_job_code "<CostCenterName>A</CostCenterName>".data
          "x</CustomerJobCode>y".data).1)
        "x</CustomerJobCode>y".data).1 ≠
      (add_customer_job_code "<CostCenterName>A</CostCenterName>".data
        "x</CustomerJobCode>y".data).1 := by decide

/-- Claim C3, amended: applying `add_customer_job_code` twice with the same
`job_code` returns the same text as applying it once, provided the
`job_code` contains neither `<` (which would let the inserted element break
the update pattern) nor a backslash (which the replacement-template
language interprets). -/
theorem add_customer_job_code_idempotent {xml jc : List Char}
    (h1 : '<' ∉ jc) (h2 : '\\' ∉ jc) :
    (add_customer_job_code (add_customer_job_code xml jc).1 jc).1 =
      (add_customer_job_code xml jc).1 := by
  by_cases hc1 : containsSub xml lit1 = true
  · rw [add_branch_update hc1 h2]
    have hc2 : containsSub (updSub jc xml) lit1 = true :=
      containsSub_iff.mpr (lit1_infix_updSub xml.length xml le_rfl (containsSub_iff.mp hc1))
    rw [add_branch_update hc2 h2]
    exact updSub_fix h1 _ _ le_rfl
  · have hc1f : containsSub xml lit1 = false := by
      cases h : containsSub xml lit1
      · rfl
      · exact absurd h hc1
    have hNo : ¬ lit1 <:+: xml := containsSub_false_iff.mp hc1f
    by_cases hff : pyFindall matchCcn xml ≠ []
    · rw [add_branch_ccn hc1f hff h2]
      have hse : pySearch matchCcn xml = true :=
        pySearch_of_findall xml.length xml le_rfl hff
      have hinf : lit1 <:+:
          pySub matchCcn (fun m => m ++ (nl8 ++ updTemplate jc)) xml :=
        lit1_infix_insSub stepConsumes_matchCcn xml.length xml le_rfl hse
      rw [add_branch_update (containsSub_iff.mpr hinf) h2]
      exact updSub_goodBlocks h1
        (insSub_goodBlocks stepConsumes_matchCcn
          (fun s2 m r h => matchCcn_head h) (fun s2 m r h => matchCcn_split h)
          (fun s2 m r h => matchCcn_hend h) xml.length xml le_rfl hNo)
    · push_neg at hff
      by_cases hss : pySearch matchOrd3 xml = true
      · rw [add_branch_ord hc1f hff hss h2]
        have hinf : lit1 <:+:
            pySub matchOrd3 (fun m => m ++ (nl8 ++ updTemplate jc)) xml :=
          lit1_infix_insSub stepConsumes_matchOrd3 xml.length xml le_rfl hss
        rw [add_branch_update (containsSub_iff.mpr hinf) h2]
        exact updSub_goodBlocks h1
          (insSub_goodBlocks stepConsumes_matchOrd3
            (fun s2 m r h => matchOrd3_head h) (fun s2 m r h => matchOrd3_split h)
            (fun s2 m r h => matchOrd3_hend h) xml.length xml le_rfl hNo)
      · have hsf : pySearch matchOrd3 xml = false := by
          cases h : pySearch matchOrd3 xml
          · rfl
          · exact absurd h hss
        rw [add_branch_none hc1f hff hsf, add_branch_none hc1f hff hsf]

theorem add_customer_job_code_idempotent_witness :
    ('<' ∉ "JOB42".data) ∧ ('\\' ∉ "JOB42".data) ∧
      (add_customer_job_code
          (add_customer_job_code "<CostCenterName>A</CostCenterName>".data "JOB42".data).1
          "JOB42".data).1 =
        (add_customer_job_code "<CostCenterName>A</CostCenterName>".data "JOB42".data).1 :=
  ⟨by decide, by decide, add_customer_job_code_idempotent (by decide) (by decide)⟩
